import Mathlib

set_option maxRecDepth 8000

/-!
Verification of the search-strategy subsystem of the pathfinding engine
(`project_1/core/agents.py`).  The four strategies (greedy `ExampleAgent`,
`DFSAgent`, `BranchAndBoundAgent`, `AStar`) are embedded as fueled
executable functions; the `Grid` and `Path` collaborators, whose source is
not part of the core, are modelled from the design document.
-/

/-- A grid coordinate `(row, column)`. -/
abbrev Coord := Nat × Nat

/-- Modelled from the spec: `Tile` (grid.py is not in the core sources) is a
coordinate plus a non-negative movement cost to enter it. -/
structure Tile where
  pos : Coord
  cost : Nat
deriving DecidableEq, Repr

/-- Modelled from the spec: the `Grid` collaborator (grid.py is not in the
core sources).  A finite 2-D grid of `height × width` tiles, each with a
non-negative entry cost.  The spec's test scenarios require grids on which
the goal can be walled off, so tiles carry a passability flag; cells with
`walkable = false` never appear among `neighbors4` results. -/
structure Grid where
  height : Nat
  width : Nat
  tileCost : Nat → Nat → Nat
  walkable : Nat → Nat → Bool

/-- A cell is usable when it is in bounds and passable. -/
def Grid.ok (g : Grid) (r c : Nat) : Bool :=
  decide (r < g.height) && decide (c < g.width) && g.walkable r c

/-- Modelled from the spec: `grid.get(r, c)` returns the tile at a
coordinate together with its entry cost. -/
def Grid.get (g : Grid) (r c : Nat) : Tile :=
  ⟨(r, c), g.tileCost r c⟩

/-- `|x - y|` on naturals. -/
def natDist (x y : Nat) : Nat := (x - y) + (y - x)

/-- Modelled from the spec: `grid.manhattan(a, b) = |r1-r2| + |c1-c2|`. -/
def Grid.manhattan (_ : Grid) (a b : Coord) : Nat :=
  natDist a.1 b.1 + natDist a.2 b.2

/-- Modelled from the spec: `grid.neighbors4(r, c)` lists the up-to-4
orthogonally adjacent usable tiles, enumerated east, south, west, north
(the direction-priority order the spec fixes for DFS). -/
def Grid.neighbors4 (g : Grid) (r c : Nat) : List Tile :=
  (if g.ok r (c + 1) = true then [g.get r (c + 1)] else []) ++
  (if g.ok (r + 1) c = true then [g.get (r + 1) c] else []) ++
  (if 0 < c ∧ g.ok r (c - 1) = true then [g.get r (c - 1)] else []) ++
  (if 0 < r ∧ g.ok (r - 1) c = true then [g.get (r - 1) c] else [])

/-- Outcome of a fueled search run: a returned `Path` (sequence of
coordinates), fuel exhaustion (the source loop would still be running), or
a crash (the source would raise, e.g. `min` over an empty sequence). -/
inductive SearchResult where
  | found : List Coord → SearchResult
  | outOfFuel : SearchResult
  | stuck : SearchResult
deriving DecidableEq, Repr

/-- Adjacency: `b` is a usable 4-neighbor of `a`. -/
def Grid.adj (g : Grid) (a b : Coord) : Prop :=
  ∃ tl ∈ g.neighbors4 a.1 a.2, tl.pos = b

instance (g : Grid) (a b : Coord) : Decidable (g.adj a b) :=
  List.decidableBEx _ _

/-- Sum of the entry costs of a segment of cells. -/
def segCost (g : Grid) (l : List Coord) : Nat :=
  (l.map (fun v => g.tileCost v.1 v.2)).sum

/-- Total movement cost of a path: the entry costs of every cell after the
starting one (the cost the searcher pays for its moves). -/
def pathCost (g : Grid) (p : List Coord) : Nat :=
  segCost g p.tail

/-- A simple route: non-empty, starts at `s`, ends at `t`, consecutive
cells 4-adjacent, no repeated cell. -/
def SimpleRoute (g : Grid) (s t : Coord) (p : List Coord) : Prop :=
  p.head? = some s ∧ p.getLast? = some t ∧ List.Chain' g.adj p ∧ p.Nodup

/-- Executable check that consecutive cells are adjacent. -/
def chainB (g : Grid) : List Coord → Bool
  | [] => true
  | [_] => true
  | a :: b :: l => decide (g.adj a b) && chainB g (b :: l)

lemma chainB_iff (g : Grid) :
    ∀ l : List Coord, chainB g l = true ↔ List.Chain' g.adj l := by
  intro l
  match l with
  | [] => simp [chainB]
  | [a] => simp [chainB]
  | a :: b :: l' =>
    rw [List.chain'_cons, chainB, Bool.and_eq_true, decide_eq_true_eq]
    exact and_congr Iff.rfl (chainB_iff g (b :: l'))

instance (g : Grid) (s t : Coord) (p : List Coord) :
    Decidable (SimpleRoute g s t p) :=
  decidable_of_iff (p.head? = some s ∧ p.getLast? = some t ∧
      chainB g p = true ∧ p.Nodup)
    (by rw [SimpleRoute, chainB_iff])

/-- `t` can be reached from `s` by a simple route. -/
def Reachable (g : Grid) (s t : Coord) : Prop :=
  ∃ p, SimpleRoute g s t p

namespace ExampleAgent

/-- One iteration body plus loop of `ExampleAgent.find_path`: repeatedly
step from the current (last) cell to a 4-neighbor minimizing Manhattan
distance to the goal; the random tie-break is modelled by the `choice`
stream (an arbitrary index source, reduced mod the number of tied tiles,
which ranges over exactly the outcomes of `random.randint`). -/
def loop (g : Grid) (goal : Coord) (choice : Nat → Nat) :
    Nat → List Coord → SearchResult
  | fuel, nodes =>
    let cur := nodes.getLastD (0, 0)
    if cur = goal then .found nodes
    else
      match fuel with
      | 0 => .outOfFuel
      | fuel + 1 =>
        match g.neighbors4 cur.1 cur.2 with
        | [] => .stuck
        | n :: ns =>
          let minDist :=
            (n :: ns).foldl (fun m tl => min m (g.manhattan tl.pos goal))
              (g.manhattan n.pos goal)
          match (n :: ns).filter
              (fun tl => decide (g.manhattan tl.pos goal = minDist)) with
          | [] => .stuck
          | b :: bs =>
            let best := (b :: bs).getD (choice fuel % (bs.length + 1)) b
            loop g goal choice fuel (nodes ++ [best.pos])

/-- `ExampleAgent.find_path`, fueled. -/
def find_path (g : Grid) (start goal : Coord) (choice : Nat → Nat)
    (fuel : Nat) : SearchResult :=
  loop g goal choice fuel [start]

end ExampleAgent

/-- DFS direction priority: east 0, south 1, west 2, north 3, keyed by the
offset from the current cell (the `directions` dict in the source). -/
def dirIndex (cur nb : Coord) : Nat :=
  if nb.1 = cur.1 ∧ nb.2 = cur.2 + 1 then 0
  else if nb.1 = cur.1 + 1 ∧ nb.2 = cur.2 then 1
  else if nb.1 = cur.1 ∧ nb.2 + 1 = cur.2 then 2
  else 3

/-- DFS sort key for a candidate tile: `(tile cost, direction priority)`. -/
def dfsKey (cur : Coord) (tl : Tile) : Nat × Nat :=
  (tl.cost, dirIndex cur tl.pos)

/-- Strict lexicographic comparison of `(Nat, Nat)` keys. -/
def keyLt (a b : Nat × Nat) : Bool :=
  decide (a.1 < b.1) || (decide (a.1 = b.1) && decide (a.2 < b.2))

/-- The first element with minimal key, as Python's `min` (and `sorted`,
being stable, in position 0) selects it: later elements replace the
running best only when strictly smaller. -/
def pickMin {α : Type} (key : α → Nat × Nat) (x : α) (xs : List α) : α :=
  xs.foldl (fun b y => if keyLt (key y) (key b) = true then y else b) x

/-- First minimal element of a tile list under `dfsKey` (what
`sorted(...)[0]` selects in the source). -/
def bestNeighbor (cur : Coord) : List Tile → Option Tile
  | [] => none
  | t :: ts => some (pickMin (dfsKey cur) t ts)

namespace DFSAgent

/-- The loop of `DFSAgent.find_path`: the stack is kept top-first; the
visited list only ever grows.  The lowest-key unvisited neighbor is pushed;
with none available the stack is popped. -/
def loop (g : Grid) (goal : Coord) :
    Nat → List Coord → List Coord → SearchResult
  | _, [], _ => .found []
  | fuel, top :: rest, visited =>
    if top = goal then .found (top :: rest).reverse
    else
      match fuel with
      | 0 => .outOfFuel
      | fuel + 1 =>
        match bestNeighbor top
            ((g.neighbors4 top.1 top.2).filter
              (fun tl => !(decide (tl.pos ∈ visited)))) with
        | none => loop g goal fuel rest visited
        | some tl => loop g goal fuel (tl.pos :: top :: rest)
            (tl.pos :: visited)

/-- `DFSAgent.find_path`, fueled. -/
def find_path (g : Grid) (start goal : Coord) (fuel : Nat) : SearchResult :=
  loop g goal fuel [start] [start]

/-- `DFSAgent.find_path` with the `neighbors4` enumeration order left
open: `ρ` may reorder the neighbor list (the spec does not fix the
collaborator's order).  Used to state that DFS is insensitive to it. -/
def loopWith (g : Grid) (goal : Coord) (ρ : Coord → List Tile → List Tile) :
    Nat → List Coord → List Coord → SearchResult
  | _, [], _ => .found []
  | fuel, top :: rest, visited =>
    if top = goal then .found (top :: rest).reverse
    else
      match fuel with
      | 0 => .outOfFuel
      | fuel + 1 =>
        match bestNeighbor top
            ((ρ top (g.neighbors4 top.1 top.2)).filter
              (fun tl => !(decide (tl.pos ∈ visited)))) with
        | none => loopWith g goal ρ fuel rest visited
        | some tl => loopWith g goal ρ fuel (tl.pos :: top :: rest)
            (tl.pos :: visited)

/-- `DFSAgent.find_path` against a grid whose `neighbors4` enumerates in
the order `ρ` dictates. -/
def find_pathWith (g : Grid) (ρ : Coord → List Tile → List Tile)
    (start goal : Coord) (fuel : Nat) : SearchResult :=
  loopWith g goal ρ fuel [start] [start]

end DFSAgent

/-- A branch-and-bound frontier entry: a candidate partial path with its
accumulated cost (the `{"path": ..., "cost": ...}` dict in the source). -/
structure BCand where
  path : List Coord
  cost : Nat
deriving DecidableEq, Repr

/-- Branch-and-bound selection key `(accumulated cost, path length)`. -/
def bnbKey (c : BCand) : Nat × Nat := (c.cost, c.path.length)

/-- First minimal pool member under `bnbKey` (Python's `min`). -/
def bnbBest (x : BCand) (xs : List BCand) : BCand :=
  pickMin bnbKey x xs

namespace BranchAndBoundAgent

/-- Expansion of a popped candidate: one new candidate per usable neighbor
not already on the candidate's own path. -/
def expand (g : Grid) (best : BCand) : List BCand :=
  let cur := best.path.getLastD (0, 0)
  (g.neighbors4 cur.1 cur.2).filterMap
    (fun nb =>
      if nb.pos ∈ best.path then none
      else some ⟨best.path ++ [nb.pos], best.cost + nb.cost⟩)

/-- The loop of `BranchAndBoundAgent.find_path`: pop the pool member with
the smallest `(cost, length)`, return it if it ends at the goal, otherwise
expand it. -/
def loop (g : Grid) (goal : Coord) : Nat → List BCand → SearchResult
  | _, [] => .found []
  | 0, _ :: _ => .outOfFuel
  | fuel + 1, x :: xs =>
    let best := bnbBest x xs
    if best.path.getLastD (0, 0) = goal then .found best.path
    else loop g goal fuel (((x :: xs).erase best) ++ expand g best)

/-- `BranchAndBoundAgent.find_path`, fueled.  The seed candidate carries
the start tile's own entry cost, as in the source. -/
def find_path (g : Grid) (start goal : Coord) (fuel : Nat) : SearchResult :=
  loop g goal fuel [⟨[start], (g.get start.1 start.2).cost⟩]

end BranchAndBoundAgent

/-- An A* frontier entry: candidate path, accumulated cost `gcost`, and
heuristic `hcost` (Manhattan distance of its last cell to the goal). -/
structure ACand where
  path : List Coord
  gcost : Nat
  hcost : Nat
deriving DecidableEq, Repr

/-- A* selection key `(gcost + hcost, path length)`. -/
def aKey (c : ACand) : Nat × Nat := (c.gcost + c.hcost, c.path.length)

/-- First minimal pool member under `aKey` (Python's `min`). -/
def aBest (x : ACand) (xs : List ACand) : ACand :=
  pickMin aKey x xs

namespace AStar

/-- Expansion of a popped candidate: the successor's `hcost` is recomputed
from the neighbor's coordinate. -/
def expand (g : Grid) (goal : Coord) (best : ACand) : List ACand :=
  let cur := best.path.getLastD (0, 0)
  (g.neighbors4 cur.1 cur.2).filterMap
    (fun nb =>
      if nb.pos ∈ best.path then none
      else some ⟨best.path ++ [nb.pos], best.gcost + nb.cost,
        g.manhattan nb.pos goal⟩)

/-- The loop of `AStar.find_path`. -/
def loop (g : Grid) (goal : Coord) : Nat → List ACand → SearchResult
  | _, [] => .found []
  | 0, _ :: _ => .outOfFuel
  | fuel + 1, x :: xs =>
    let best := aBest x xs
    if best.path.getLastD (0, 0) = goal then .found best.path
    else loop g goal fuel (((x :: xs).erase best) ++ expand g goal best)

/-- `AStar.find_path`, fueled. -/
def find_path (g : Grid) (start goal : Coord) (fuel : Nat) : SearchResult :=
  loop g goal fuel
    [⟨[start], (g.get start.1 start.2).cost, g.manhattan start goal⟩]

end AStar

/-- The registered strategies, as a closed variant type. -/
inductive AgentKind where
  | exampleAgent
  | dfsAgent
  | branchAndBoundAgent
  | aStarAgent
deriving DecidableEq, Repr

/-- The `AGENTS` registry: strategy name to constructor. -/
def AGENTS : List (String × AgentKind) :=
  [("Example", .exampleAgent), ("DFS", .dfsAgent),
   ("BranchAndBound", .branchAndBoundAgent), ("AStar", .aStarAgent)]

/-- `create_agent`: look the name up in `AGENTS`; unknown names raise a
`ValueError` listing the available strategy names. -/
def create_agent (name : String) : Except String AgentKind :=
  match AGENTS.lookup name with
  | none => .error ("Unknown agent \x27" ++ name ++ "\x27. Available: " ++
      String.intercalate ", " (AGENTS.map Prod.fst))
  | some k => .ok k

/-- The 3×3 uniform-unit-cost grid of the spec's concrete scenario. -/
def unitGrid3 : Grid := ⟨3, 3, fun _ _ => 1, fun _ _ => true⟩

/-- A 3×4 all-passable grid with zero-cost tiles except an expensive cell
`(0,1)` (cost 3) and a wall of cost-50 cells at `(1,1)` and `(1,2)`. -/
def zeroCostGrid : Grid :=
  ⟨3, 4,
    fun r c =>
      if r = 0 ∧ c = 1 then 3
      else if r = 1 ∧ (c = 1 ∨ c = 2) then 50
      else 0,
    fun _ _ => true⟩

/-- A 2×3 grid whose middle column is impassable: the right column is
walled off from the left one. -/
def walledGrid : Grid := ⟨2, 3, fun _ _ => 1, fun _ c => !(c == 1)⟩

/-- A 2×2 uniform-cost grid. -/
def unitGrid2 : Grid := ⟨2, 2, fun _ _ => 1, fun _ _ => true⟩

/-- A 1×2 uniform-cost grid. -/
def rowGrid2 : Grid := ⟨1, 2, fun _ _ => 1, fun _ _ => true⟩

/-! ### Key-order facts -/

/-- Propositional form of `keyLt`. -/
def klt (a b : Nat × Nat) : Prop := a.1 < b.1 ∨ (a.1 = b.1 ∧ a.2 < b.2)

lemma keyLt_iff {a b : Nat × Nat} : keyLt a b = true ↔ klt a b := by
  simp [keyLt, klt]

lemma klt_irrefl (a : Nat × Nat) : ¬ klt a a := by
  simp [klt]

lemma klt_trans {a b c : Nat × Nat} : klt a b → klt b c → klt a c := by
  simp only [klt]; omega

lemma klt_neg_trans {a b c : Nat × Nat} :
    ¬ klt a b → ¬ klt b c → ¬ klt a c := by
  simp only [klt]; omega

lemma klt_fst_le {a b : Nat × Nat} : ¬ klt a b → b.1 ≤ a.1 := by
  simp only [klt]; omega

/-! ### `pickMin` facts -/

lemma pickMin_mem {α : Type} (key : α → Nat × Nat) :
    ∀ (xs : List α) (x : α), pickMin key x xs ∈ x :: xs := by
  intro xs
  induction xs with
  | nil => intro x; simp [pickMin]
  | cons y ys ih =>
    intro x
    have hstep : pickMin key x (y :: ys) =
        pickMin key (if keyLt (key y) (key x) = true then y else x) ys := rfl
    rw [hstep]
    rcases List.mem_cons.mp
        (ih (if keyLt (key y) (key x) = true then y else x)) with h | h
    · rw [h]; split
      · exact List.mem_cons_of_mem _ (List.mem_cons_self _ _)
      · exact List.mem_cons_self _ _
    · exact List.mem_cons_of_mem _ (List.mem_cons_of_mem _ h)

lemma pickMin_not_lt {α : Type} (key : α → Nat × Nat) :
    ∀ (xs : List α) (x : α), ∀ y ∈ x :: xs,
      ¬ klt (key y) (key (pickMin key x xs)) := by
  intro xs
  induction xs with
  | nil =>
    intro x y hy
    rcases List.mem_cons.mp hy with h | h
    · subst h; simp only [pickMin, List.foldl_nil]; exact klt_irrefl _
    · simp at h
  | cons z zs ih =>
    intro x y hy
    have hstep : pickMin key x (z :: zs) =
        pickMin key (if keyLt (key z) (key x) = true then z else x) zs := rfl
    rw [hstep]
    by_cases hc : keyLt (key z) (key x) = true
    · have hz : klt (key z) (key x) := keyLt_iff.mp hc
      rw [if_pos hc]
      have hzmin := ih z z (List.mem_cons_self _ _)
      rcases List.mem_cons.mp hy with h | h
      · rw [h]
        intro hxk
        exact hzmin (klt_trans hz hxk)
      · rcases List.mem_cons.mp h with h' | h'
        · rw [h']; exact ih z z (List.mem_cons_self _ _)
        · exact ih z y (List.mem_cons_of_mem _ h')
    · have hz : ¬ klt (key z) (key x) := fun hk => hc (keyLt_iff.mpr hk)
      rw [if_neg hc]
      rcases List.mem_cons.mp hy with h | h
      · rw [h]; exact ih x x (List.mem_cons_self _ _)
      · rcases List.mem_cons.mp h with h' | h'
        · rw [h']
          exact klt_neg_trans hz (ih x x (List.mem_cons_self _ _))
        · exact ih x y (List.mem_cons_of_mem _ h')

lemma bnbBest_mem (x : BCand) (xs : List BCand) : bnbBest x xs ∈ x :: xs :=
  pickMin_mem _ _ _

lemma bnbBest_not_lt (x : BCand) (xs : List BCand) :
    ∀ y ∈ x :: xs, ¬ klt (bnbKey y) (bnbKey (bnbBest x xs)) :=
  pickMin_not_lt _ _ _

lemma aBest_mem (x : ACand) (xs : List ACand) : aBest x xs ∈ x :: xs :=
  pickMin_mem _ _ _

lemma aBest_not_lt (x : ACand) (xs : List ACand) :
    ∀ y ∈ x :: xs, ¬ klt (aKey y) (aKey (aBest x xs)) :=
  pickMin_not_lt _ _ _

lemma bestNeighbor_eq_none_iff {cur : Coord} {l : List Tile} :
    bestNeighbor cur l = none ↔ l = [] := by
  cases l <;> simp [bestNeighbor]

lemma bestNeighbor_mem {cur : Coord} {l : List Tile} {tl : Tile}
    (h : bestNeighbor cur l = some tl) : tl ∈ l := by
  cases l with
  | nil => simp [bestNeighbor] at h
  | cons t ts =>
    simp only [bestNeighbor, Option.some.injEq] at h
    exact h ▸ pickMin_mem _ _ _

lemma bestNeighbor_not_lt {cur : Coord} {l : List Tile} {tl : Tile}
    (h : bestNeighbor cur l = some tl) :
    ∀ u ∈ l, ¬ klt (dfsKey cur u) (dfsKey cur tl) := by
  cases l with
  | nil => simp
  | cons t ts =>
    simp only [bestNeighbor, Option.some.injEq] at h
    exact h ▸ pickMin_not_lt _ _ _

/-! ### `neighbors4` facts -/

lemma mem_neighbors4_iff {g : Grid} {r c : Nat} {tl : Tile} :
    tl ∈ g.neighbors4 r c ↔
      (g.ok r (c + 1) = true ∧ tl = g.get r (c + 1)) ∨
      (g.ok (r + 1) c = true ∧ tl = g.get (r + 1) c) ∨
      (0 < c ∧ g.ok r (c - 1) = true ∧ tl = g.get r (c - 1)) ∨
      (0 < r ∧ g.ok (r - 1) c = true ∧ tl = g.get (r - 1) c) := by
  by_cases h1 : g.ok r (c + 1) = true <;>
    by_cases h2 : g.ok (r + 1) c = true <;>
      by_cases h3 : 0 < c ∧ g.ok r (c - 1) = true <;>
        by_cases h4 : 0 < r ∧ g.ok (r - 1) c = true <;>
          simp [Grid.neighbors4, h1, h2, h3, h4, List.mem_append] <;> tauto

lemma neighbors4_cost {g : Grid} {r c : Nat} {tl : Tile}
    (h : tl ∈ g.neighbors4 r c) :
    tl.cost = g.tileCost tl.pos.1 tl.pos.2 := by
  rcases mem_neighbors4_iff.mp h with ⟨_, h⟩ | ⟨_, h⟩ | ⟨_, _, h⟩ | ⟨_, _, h⟩ <;>
    subst h <;> rfl

lemma ok_bounds {g : Grid} {r c : Nat} (h : g.ok r c = true) :
    r < g.height ∧ c < g.width := by
  simp only [Grid.ok, Bool.and_eq_true, decide_eq_true_eq] at h
  exact ⟨h.1.1, h.1.2⟩

lemma neighbors4_inBounds {g : Grid} {r c : Nat} {tl : Tile}
    (h : tl ∈ g.neighbors4 r c) :
    tl.pos.1 < g.height ∧ tl.pos.2 < g.width := by
  rcases mem_neighbors4_iff.mp h with ⟨hk, h⟩ | ⟨hk, h⟩ | ⟨_, hk, h⟩ | ⟨_, hk, h⟩ <;>
    subst h <;> exact ok_bounds hk

lemma neighbors4_step {g : Grid} {r c : Nat} {tl : Tile}
    (h : tl ∈ g.neighbors4 r c) :
    tl.pos = (r, c + 1) ∨ tl.pos = (r + 1, c) ∨
      (0 < c ∧ tl.pos = (r, c - 1)) ∨ (0 < r ∧ tl.pos = (r - 1, c)) := by
  rcases mem_neighbors4_iff.mp h with ⟨_, h⟩ | ⟨_, h⟩ | ⟨hc, _, h⟩ | ⟨hr, _, h⟩ <;>
    subst h
  · exact Or.inl rfl
  · exact Or.inr (Or.inl rfl)
  · exact Or.inr (Or.inr (Or.inl ⟨hc, rfl⟩))
  · exact Or.inr (Or.inr (Or.inr ⟨hr, rfl⟩))

/-! ### Manhattan-distance facts -/

lemma manhattan_self (g : Grid) (a : Coord) : g.manhattan a a = 0 := by
  simp [Grid.manhattan, natDist]

lemma adj_manhattan_le {g : Grid} {a b t : Coord} (h : g.adj a b) :
    g.manhattan b t ≤ g.manhattan a t + 1 := by
  obtain ⟨tl, htl, hpos⟩ := h
  obtain ⟨a1, a2⟩ := a
  obtain ⟨t1, t2⟩ := t
  rcases neighbors4_step htl with hp | hp | ⟨hc, hp⟩ | ⟨hr, hp⟩ <;>
    rw [hpos] at hp <;> subst hp <;>
    simp only [Grid.manhattan, natDist] <;> omega

lemma adj_manhattan_ge {g : Grid} {a b t : Coord} (h : g.adj a b) :
    g.manhattan a t ≤ g.manhattan b t + 1 := by
  obtain ⟨tl, htl, hpos⟩ := h
  obtain ⟨a1, a2⟩ := a
  obtain ⟨t1, t2⟩ := t
  rcases neighbors4_step htl with hp | hp | ⟨hc, hp⟩ | ⟨hr, hp⟩ <;>
    rw [hpos] at hp <;> subst hp <;>
    simp only [Grid.manhattan, natDist] <;> omega

lemma manhattan_le_length {g : Grid} {t : Coord} :
    ∀ (r : List Coord) (x : Coord), List.Chain' g.adj (x :: r) →
      (x :: r).getLast? = some t → g.manhattan x t ≤ r.length := by
  intro r
  induction r with
  | nil =>
    intro x _ hlast
    simp only [List.getLast?_singleton, Option.some.injEq] at hlast
    subst hlast
    simp [manhattan_self]
  | cons y r' ih =>
    intro x hchain hlast
    rw [List.chain'_cons] at hchain
    have h1 : g.manhattan x t ≤ g.manhattan y t + 1 :=
      adj_manhattan_ge hchain.1
    have h2 := ih y hchain.2 (by rw [← hlast]; rfl)
    simp only [List.length_cons]
    omega

/-! ### Cost facts -/

lemma segCost_append (g : Grid) (l₁ l₂ : List Coord) :
    segCost g (l₁ ++ l₂) = segCost g l₁ + segCost g l₂ := by
  simp [segCost]

lemma length_le_segCost {g : Grid} (hpos : ∀ r c, 1 ≤ g.tileCost r c) :
    ∀ l : List Coord, l.length ≤ segCost g l := by
  intro l
  induction l with
  | nil => simp [segCost]
  | cons a l ih =>
    have := hpos a.1 a.2
    simp only [segCost, List.map_cons, List.sum_cons, List.length_cons]
    simp only [segCost] at ih
    omega

lemma pathCost_append {g : Grid} {p : List Coord} (r : List Coord)
    (h : p ≠ []) : pathCost g (p ++ r) = pathCost g p + segCost g r := by
  cases p with
  | nil => exact absurd rfl h
  | cons a p' => simp [pathCost, segCost_append]

lemma pathCost_concat {g : Grid} {p : List Coord} (e : Coord)
    (h : p ≠ []) :
    pathCost g (p ++ [e]) = pathCost g p + g.tileCost e.1 e.2 := by
  rw [pathCost_append [e] h]
  simp [segCost]

lemma getLast?_eq_some_getLastD {α : Type} {l : List α} (h : l ≠ [])
    (d : α) : l.getLast? = some (l.getLastD d) := by
  cases l with
  | nil => exact absurd rfl h
  | cons a l' => simp [List.getLastD_eq_getLast?, List.getLast?_cons]

/-! ### Generic route facts -/

lemma mem_of_getLast?_eq {α : Type} :
    ∀ {l : List α} {a : α}, l.getLast? = some a → a ∈ l := by
  intro l
  induction l with
  | nil => intro a h; simp at h
  | cons b l' ih =>
    intro a h
    cases l' with
    | nil =>
      simp only [List.getLast?_singleton, Option.some.injEq] at h
      simp [h]
    | cons c l'' =>
      rw [List.getLast?_cons_cons] at h
      exact List.mem_cons_of_mem _ (ih h)

lemma adj_of_mem_neighbors {g : Grid} {a : Coord} {tl : Tile}
    (h : tl ∈ g.neighbors4 a.1 a.2) : g.adj a tl.pos :=
  ⟨tl, h, rfl⟩

/-- Cells connected by a chain of adjacencies never leave a
neighbor-closed set. -/
lemma chain_stays {g : Grid} (V : List Coord)
    (hcl : ∀ a ∈ V, ∀ tl ∈ g.neighbors4 a.1 a.2, tl.pos ∈ V) :
    ∀ (p : List Coord) (a : Coord), List.Chain' g.adj (a :: p) → a ∈ V →
      ∀ x ∈ a :: p, x ∈ V := by
  intro p
  induction p with
  | nil =>
    intro a _ ha x hx
    rcases List.mem_cons.mp hx with h | h
    · rwa [h]
    · simp at h
  | cons b p' ih =>
    intro a hchain ha x hx
    rw [List.chain'_cons] at hchain
    have hb : b ∈ V := by
      obtain ⟨tl, htl, hpos⟩ := hchain.1
      exact hpos ▸ hcl a ha tl htl
    rcases List.mem_cons.mp hx with h | h
    · rwa [h]
    · exact ih b hchain.2 hb x h

/-- A neighbor-closed set containing `s` but not `t` witnesses
unreachability. -/
lemma closed_not_reachable {g : Grid} {s t : Coord} (V : List Coord)
    (hs : s ∈ V) (hcl : ∀ a ∈ V, ∀ tl ∈ g.neighbors4 a.1 a.2, tl.pos ∈ V)
    (ht : t ∉ V) : ¬ Reachable g s t := by
  rintro ⟨p, hhead, hlast, hchain, _⟩
  cases p with
  | nil => simp at hhead
  | cons a p' =>
    simp only [List.head?_cons, Option.some.injEq] at hhead
    have hmem : ∀ x ∈ a :: p', x ∈ V :=
      chain_stays V hcl p' a hchain (by rw [hhead]; exact hs)
    exact ht (hmem t (mem_of_getLast?_eq hlast))

/-- A non-empty valid simple path witnesses reachability. -/
lemma reachable_of_route {g : Grid} {s t : Coord} {p : List Coord}
    (h : SimpleRoute g s t p) : Reachable g s t := ⟨p, h⟩

/-! ### DFS: the search never crashes -/

lemma DFSAgent.loop_ne_stuck (g : Grid) (goal : Coord) :
    ∀ (fuel : Nat) (stack visited : List Coord),
      DFSAgent.loop g goal fuel stack visited ≠ .stuck := by
  intro fuel
  induction fuel with
  | zero =>
    intro stack visited
    cases stack with
    | nil => simp [DFSAgent.loop]
    | cons top rest =>
      simp only [DFSAgent.loop]
      split <;> simp
  | succ fuel ih =>
    intro stack visited
    cases stack with
    | nil => simp [DFSAgent.loop]
    | cons top rest =>
      simp only [DFSAgent.loop]
      split
      · simp
      · split
        · exact ih rest visited
        · exact ih _ _

/-! ### DFS: validity of a returned non-empty path -/

lemma DFSAgent.loop_found_valid_dfs (g : Grid) (goal s : Coord) :
    ∀ (fuel : Nat) (stack visited : List Coord) (p : List Coord),
      (stack ≠ [] → stack.getLast? = some s) →
      List.Chain' (fun a b => g.adj b a) stack →
      stack.Nodup →
      (∀ v ∈ stack, v ∈ visited) →
      DFSAgent.loop g goal fuel stack visited = .found p → p ≠ [] →
      p.head? = some s ∧ p.getLast? = some goal ∧
        List.Chain' g.adj p ∧ p.Nodup := by
  intro fuel
  induction fuel with
  | zero =>
    intro stack visited p hlast hchain hnd hsub hrun hne
    cases stack with
    | nil =>
      simp only [DFSAgent.loop, SearchResult.found.injEq] at hrun
      exact absurd hrun.symm hne
    | cons top rest =>
      simp only [DFSAgent.loop] at hrun
      by_cases hg : top = goal
      · rw [if_pos hg] at hrun
        simp only [SearchResult.found.injEq] at hrun
        subst hrun
        refine ⟨?_, ?_, ?_, ?_⟩
        · rw [List.head?_reverse]; exact hlast (by simp)
        · rw [List.getLast?_reverse]; simp [hg]
        · exact List.chain'_reverse.mpr hchain
        · exact List.nodup_reverse.mpr hnd
      · rw [if_neg hg] at hrun
        simp at hrun
  | succ fuel ih =>
    intro stack visited p hlast hchain hnd hsub hrun hne
    cases stack with
    | nil =>
      simp only [DFSAgent.loop, SearchResult.found.injEq] at hrun
      exact absurd hrun.symm hne
    | cons top rest =>
      simp only [DFSAgent.loop] at hrun
      by_cases hg : top = goal
      · rw [if_pos hg] at hrun
        simp only [SearchResult.found.injEq] at hrun
        subst hrun
        refine ⟨?_, ?_, ?_, ?_⟩
        · rw [List.head?_reverse]; exact hlast (by simp)
        · rw [List.getLast?_reverse]; simp [hg]
        · exact List.chain'_reverse.mpr hchain
        · exact List.nodup_reverse.mpr hnd
      · rw [if_neg hg] at hrun
        rcases hbn : bestNeighbor top
            ((g.neighbors4 top.1 top.2).filter
              (fun tl => !(decide (tl.pos ∈ visited)))) with _ | tl
        · rw [hbn] at hrun
          cases rest with
          | nil =>
            exact absurd ((ih [] visited p (by simp)
              (by simp) (by simp) (by simp) hrun hne).1)
              (by simp [DFSAgent.loop, SearchResult.found.injEq] at hrun;
                  subst hrun; simp at hne)
          | cons top' rest' =>
            refine ih (top' :: rest') visited p ?_ ?_ ?_ ?_ hrun hne
            · intro _
              rw [← hlast (by simp)]
              exact (List.getLast?_cons_cons).symm
            · exact hchain.tail
            · exact hnd.of_cons
            · intro v hv; exact hsub v (List.mem_cons_of_mem _ hv)
        · rw [hbn] at hrun
          have htl := bestNeighbor_mem hbn
          have htl' := List.mem_filter.mp htl
          have hnotv : tl.pos ∉ visited := by
            have := htl'.2
            simp only [Bool.not_eq_true'] at this
            simpa using this
          refine ih (tl.pos :: top :: rest) (tl.pos :: visited) p ?_ ?_ ?_ ?_
            hrun hne
          · intro _
            rw [List.getLast?_cons_cons]
            exact hlast (by simp)
          · rw [List.chain'_cons]
            exact ⟨adj_of_mem_neighbors htl'.1, hchain⟩
          · refine List.nodup_cons.mpr ⟨?_, hnd⟩
            intro hmem
            exact hnotv (hsub tl.pos hmem)
          · intro v hv
            rcases List.mem_cons.mp hv with h | h
            · rw [h]; exact List.mem_cons_self _ _
            · exact List.mem_cons_of_mem _ (hsub v h)

/-! ### DFS: termination within a fuel budget linear in the grid size -/

lemma nodup_bounded_length {g : Grid} {s : Coord} {l : List Coord}
    (hnd : l.Nodup)
    (hb : ∀ v ∈ l, (v.1 < g.height ∧ v.2 < g.width) ∨ v = s) :
    l.length ≤ g.height * g.width + 1 := by
  have hsub : l.toFinset ⊆
      insert s ((Finset.range g.height) ×ˢ (Finset.range g.width)) := by
    intro v hv
    rcases hb v (List.mem_toFinset.mp hv) with ⟨h1, h2⟩ | h
    · exact Finset.mem_insert_of_mem
        (Finset.mem_product.mpr ⟨Finset.mem_range.mpr h1, Finset.mem_range.mpr h2⟩)
    · exact h ▸ Finset.mem_insert_self _ _
  have hcard := Finset.card_le_card hsub
  have hins := Finset.card_insert_le s
      ((Finset.range g.height) ×ˢ (Finset.range g.width))
  rw [Finset.card_product, Finset.card_range, Finset.card_range] at hins
  rw [List.toFinset_card_of_nodup hnd] at hcard
  omega

lemma DFSAgent.loop_ne_outOfFuel (g : Grid) (goal s : Coord) :
    ∀ (fuel : Nat) (stack visited : List Coord),
      visited.Nodup →
      (∀ v ∈ stack, v ∈ visited) →
      (∀ v ∈ visited, (v.1 < g.height ∧ v.2 < g.width) ∨ v = s) →
      2 * (g.height * g.width + 1 - visited.length) + stack.length < fuel →
      DFSAgent.loop g goal fuel stack visited ≠ .outOfFuel := by
  intro fuel
  induction fuel with
  | zero =>
    intro stack visited _ _ _ hμ
    exact absurd hμ (Nat.not_lt_zero _)
  | succ fuel ih =>
    intro stack visited hnd hsub hb hμ
    cases stack with
    | nil => simp [DFSAgent.loop]
    | cons top rest =>
      simp only [DFSAgent.loop]
      by_cases hg : top = goal
      · rw [if_pos hg]; simp
      · rw [if_neg hg]
        rcases hbn : bestNeighbor top
            ((g.neighbors4 top.1 top.2).filter
              (fun tl => !(decide (tl.pos ∈ visited)))) with _ | tl
        · refine ih rest visited hnd
            (fun v hv => hsub v (List.mem_cons_of_mem _ hv)) hb ?_
          simp only [List.length_cons] at hμ
          omega
        · have htl := List.mem_filter.mp (bestNeighbor_mem hbn)
          have hnotv : tl.pos ∉ visited := by
            have := htl.2
            simp only [Bool.not_eq_true'] at this
            simpa using this
          have hin := neighbors4_inBounds htl.1
          have hnd' : (tl.pos :: visited).Nodup :=
            List.nodup_cons.mpr ⟨hnotv, hnd⟩
          have hb' : ∀ v ∈ tl.pos :: visited,
              (v.1 < g.height ∧ v.2 < g.width) ∨ v = s := by
            intro v hv
            rcases List.mem_cons.mp hv with h | h
            · exact Or.inl (h ▸ hin)
            · exact hb v h
          have hlen : (tl.pos :: visited).length ≤ g.height * g.width + 1 :=
            nodup_bounded_length hnd' hb'
          refine ih (tl.pos :: top :: rest) (tl.pos :: visited) hnd' ?_ hb' ?_
          · intro v hv
            rcases List.mem_cons.mp hv with h | h
            · rw [h]; exact List.mem_cons_self _ _
            · exact List.mem_cons_of_mem _ (hsub v h)
          · simp only [List.length_cons] at hμ hlen ⊢
            omega

/-! ### DFS: an empty result means the goal is cut off -/

lemma DFSAgent.loop_found_nil_closed (g : Grid) (goal : Coord) :
    ∀ (fuel : Nat) (stack visited : List Coord),
      (∀ v ∈ visited, v ∉ stack →
        ∀ tl ∈ g.neighbors4 v.1 v.2, tl.pos ∈ visited) →
      (∀ v ∈ stack, v ∈ visited) →
      goal ∉ visited →
      DFSAgent.loop g goal fuel stack visited = .found [] →
      ∃ V : List Coord, (∀ v ∈ visited, v ∈ V) ∧
        (∀ a ∈ V, ∀ tl ∈ g.neighbors4 a.1 a.2, tl.pos ∈ V) ∧ goal ∉ V := by
  intro fuel
  induction fuel with
  | zero =>
    intro stack visited hcl hsub hgl hrun
    cases stack with
    | nil =>
      exact ⟨visited, fun v hv => hv,
        fun a ha tl htl => hcl a ha (by simp) tl htl, hgl⟩
    | cons top rest =>
      simp only [DFSAgent.loop] at hrun
      by_cases hg : top = goal
      · rw [if_pos hg] at hrun
        simp at hrun
      · rw [if_neg hg] at hrun
        simp at hrun
  | succ fuel ih =>
    intro stack visited hcl hsub hgl hrun
    cases stack with
    | nil =>
      exact ⟨visited, fun v hv => hv,
        fun a ha tl htl => hcl a ha (by simp) tl htl, hgl⟩
    | cons top rest =>
      simp only [DFSAgent.loop] at hrun
      by_cases hg : top = goal
      · rw [if_pos hg] at hrun
        simp at hrun
      · rw [if_neg hg] at hrun
        rcases hbn : bestNeighbor top
            ((g.neighbors4 top.1 top.2).filter
              (fun tl => !(decide (tl.pos ∈ visited)))) with _ | tl
        · rw [hbn] at hrun
          refine ih rest visited ?_
            (fun v hv => hsub v (List.mem_cons_of_mem _ hv)) hgl hrun
          intro v hv hvr tl htl
          by_cases hvt : v = top
          · have hfil := bestNeighbor_eq_none_iff.mp hbn
            have := List.filter_eq_nil_iff.mp hfil tl (hvt ▸ htl)
            simp only [Bool.not_eq_true', Bool.not_eq_false] at this
            simpa using this
          · exact hcl v hv
              (fun hm => (List.mem_cons.mp hm).elim hvt hvr) tl htl
        · rw [hbn] at hrun
          have htlm := List.mem_filter.mp (bestNeighbor_mem hbn)
          by_cases hqg : tl.pos = goal
          · exfalso
            have hrun' : DFSAgent.loop g goal fuel (tl.pos :: top :: rest)
                (tl.pos :: visited) = .found [] := hrun
            rw [hqg] at hrun'
            cases fuel with
            | zero =>
              simp only [DFSAgent.loop] at hrun'
              simp at hrun'
            | succ fuel' =>
              simp only [DFSAgent.loop] at hrun'
              simp at hrun'
          · have hres := ih (tl.pos :: top :: rest) (tl.pos :: visited)
              ?_ ?_ ?_ hrun
            · obtain ⟨V, hV1, hV2, hV3⟩ := hres
              exact ⟨V, fun v hv => hV1 v (List.mem_cons_of_mem _ hv),
                hV2, hV3⟩
            · intro v hv hvs tl' htl'
              rcases List.mem_cons.mp hv with h | h
              · exact absurd (h ▸ List.mem_cons_self tl.pos (top :: rest)) hvs
              · exact List.mem_cons_of_mem _
                  (hcl v h
                    (fun hm => hvs (List.mem_cons_of_mem _ hm)) tl' htl')
            · intro v hv
              rcases List.mem_cons.mp hv with h | h
              · rw [h]; exact List.mem_cons_self _ _
              · exact List.mem_cons_of_mem _ (hsub v h)
            · intro hm
              rcases List.mem_cons.mp hm with h | h
              · exact hqg h.symm
              · exact hgl h

/-! ### DFS: insensitivity to the neighbor enumeration order -/

lemma dirIndex_east (r c : Nat) : dirIndex (r, c) (r, c + 1) = 0 := by
  simp [dirIndex]

lemma dirIndex_south (r c : Nat) : dirIndex (r, c) (r + 1, c) = 1 := by
  show (if r + 1 = r ∧ c = c + 1 then 0
    else if r + 1 = r + 1 ∧ c = c then 1
    else if r + 1 = r ∧ c + 1 = c then 2 else 3) = 1
  rw [if_neg (by omega), if_pos (by omega)]

lemma dirIndex_west (r c : Nat) (h : 0 < c) :
    dirIndex (r, c) (r, c - 1) = 2 := by
  show (if r = r ∧ c - 1 = c + 1 then 0
    else if r = r + 1 ∧ c - 1 = c then 1
    else if r = r ∧ c - 1 + 1 = c then 2 else 3) = 2
  rw [if_neg (by omega), if_neg (by omega), if_pos (by omega)]

lemma dirIndex_north (r c : Nat) (h : 0 < r) :
    dirIndex (r, c) (r - 1, c) = 3 := by
  show (if r - 1 = r ∧ c = c + 1 then 0
    else if r - 1 = r + 1 ∧ c = c then 1
    else if r - 1 = r ∧ c + 1 = c then 2 else 3) = 3
  rw [if_neg (by omega), if_neg (by omega), if_neg (by omega)]

lemma neighbors4_dirIndex_nodup (g : Grid) (cur : Coord) :
    ((g.neighbors4 cur.1 cur.2).map (fun tl => dirIndex cur tl.pos)).Nodup := by
  obtain ⟨r, c⟩ := cur
  have he := dirIndex_east r c
  have hs := dirIndex_south r c
  by_cases h3 : 0 < c ∧ g.ok r (c - 1) = true
  · have hw := dirIndex_west r c h3.1
    by_cases h4 : 0 < r ∧ g.ok (r - 1) c = true
    · have hn := dirIndex_north r c h4.1
      by_cases h1 : g.ok r (c + 1) = true <;>
        by_cases h2 : g.ok (r + 1) c = true <;>
          simp [Grid.neighbors4, h1, h2, h3, h4, Grid.get, he, hs, hw, hn]
    · by_cases h1 : g.ok r (c + 1) = true <;>
        by_cases h2 : g.ok (r + 1) c = true <;>
          simp [Grid.neighbors4, h1, h2, h3, h4, Grid.get, he, hs, hw]
  · by_cases h4 : 0 < r ∧ g.ok (r - 1) c = true
    · have hn := dirIndex_north r c h4.1
      by_cases h1 : g.ok r (c + 1) = true <;>
        by_cases h2 : g.ok (r + 1) c = true <;>
          simp [Grid.neighbors4, h1, h2, h3, h4, Grid.get, he, hs, hn]
    · by_cases h1 : g.ok r (c + 1) = true <;>
        by_cases h2 : g.ok (r + 1) c = true <;>
          simp [Grid.neighbors4, h1, h2, h3, h4, Grid.get, he, hs]

lemma neighbors4_keys_nodup (g : Grid) (cur : Coord) :
    ((g.neighbors4 cur.1 cur.2).map (dfsKey cur)).Nodup := by
  have h := neighbors4_dirIndex_nodup g cur
  have heq : ((g.neighbors4 cur.1 cur.2).map (dfsKey cur)).map Prod.snd =
      (g.neighbors4 cur.1 cur.2).map (fun tl => dirIndex cur tl.pos) := by
    simp [List.map_map, dfsKey, Function.comp]
  exact List.Nodup.of_map Prod.snd (heq ▸ h)

lemma key_eq_of_not_klt {a b : Nat × Nat} (h1 : ¬ klt a b)
    (h2 : ¬ klt b a) : a = b := by
  obtain ⟨a1, a2⟩ := a
  obtain ⟨b1, b2⟩ := b
  simp only [klt] at h1 h2
  have : a1 = b1 ∧ a2 = b2 := by omega
  rw [this.1, this.2]

lemma bestNeighbor_perm {cur : Coord} {l₁ l₂ : List Tile}
    (hp : l₁.Perm l₂) (hnd : (l₂.map (dfsKey cur)).Nodup) :
    bestNeighbor cur l₁ = bestNeighbor cur l₂ := by
  cases hl₁ : bestNeighbor cur l₁ with
  | none =>
    rw [bestNeighbor_eq_none_iff] at hl₁
    subst hl₁
    rw [bestNeighbor_eq_none_iff.mpr (List.Perm.nil_eq hp).symm]
  | some a =>
    cases hl₂ : bestNeighbor cur l₂ with
    | none =>
      rw [bestNeighbor_eq_none_iff] at hl₂
      subst hl₂
      rw [bestNeighbor_eq_none_iff.mpr (List.Perm.eq_nil hp)] at hl₁
      exact hl₁.symm ▸ rfl
    | some b =>
      have ha := bestNeighbor_mem hl₁
      have hb := bestNeighbor_mem hl₂
      have ha2 : a ∈ l₂ := hp.mem_iff.mp ha
      have hmin_a := bestNeighbor_not_lt hl₁
      have hmin_b := bestNeighbor_not_lt hl₂
      have h1 : ¬ klt (dfsKey cur b) (dfsKey cur a) :=
        hmin_a b (hp.mem_iff.mpr hb)
      have h2 : ¬ klt (dfsKey cur a) (dfsKey cur b) := hmin_b a ha2
      have hkeq : dfsKey cur a = dfsKey cur b := key_eq_of_not_klt h2 h1
      rw [List.inj_on_of_nodup_map hnd ha2 hb hkeq]

lemma DFSAgent.loopWith_eq_loop (g : Grid) (goal : Coord)
    (ρ : Coord → List Tile → List Tile)
    (hρ : ∀ p l, (ρ p l).Perm l) :
    ∀ (fuel : Nat) (stack visited : List Coord),
      DFSAgent.loopWith g goal ρ fuel stack visited =
        DFSAgent.loop g goal fuel stack visited := by
  have hbn : ∀ (top : Coord) (visited : List Coord),
      bestNeighbor top
          ((ρ top (g.neighbors4 top.1 top.2)).filter
            (fun tl => !(decide (tl.pos ∈ visited)))) =
        bestNeighbor top
          ((g.neighbors4 top.1 top.2).filter
            (fun tl => !(decide (tl.pos ∈ visited)))) := by
    intro top visited
    refine bestNeighbor_perm ((hρ top _).filter _) ?_
    exact (neighbors4_keys_nodup g top).sublist
      ((List.filter_sublist _).map (dfsKey top))
  intro fuel
  induction fuel with
  | zero =>
    intro stack visited
    cases stack with
    | nil => rfl
    | cons top rest =>
      simp only [DFSAgent.loop, DFSAgent.loopWith]
  | succ fuel ih =>
    intro stack visited
    cases stack with
    | nil => rfl
    | cons top rest =>
      simp only [DFSAgent.loop, DFSAgent.loopWith]
      by_cases hg : top = goal
      · rw [if_pos hg, if_pos hg]
      · rw [if_neg hg, if_neg hg, hbn top visited]
        rcases hb : bestNeighbor top
            ((g.neighbors4 top.1 top.2).filter
              (fun tl => !(decide (tl.pos ∈ visited)))) with _ | tl
        · exact ih rest visited
        · exact ih (tl.pos :: top :: rest) (tl.pos :: visited)

/-! ### Greedy strategy: facts about one step -/

/-- One greedy move: `b` is a 4-neighbor of `a` whose Manhattan distance
to the goal is minimal among the neighbors of `a`. -/
def GreedyStep (g : Grid) (goal : Coord) (a b : Coord) : Prop :=
  (∃ tl ∈ g.neighbors4 a.1 a.2, tl.pos = b) ∧
    ∀ tl ∈ g.neighbors4 a.1 a.2,
      g.manhattan b goal ≤ g.manhattan tl.pos goal

lemma foldl_min_le_init (f : Tile → Nat) :
    ∀ (l : List Tile) (init : Nat),
      l.foldl (fun m tl => min m (f tl)) init ≤ init := by
  intro l
  induction l with
  | nil => intro init; simp
  | cons y ys ih =>
    intro init
    calc (y :: ys).foldl (fun m tl => min m (f tl)) init
        = ys.foldl (fun m tl => min m (f tl)) (min init (f y)) := rfl
      _ ≤ min init (f y) := ih _
      _ ≤ init := Nat.min_le_left _ _

lemma foldl_min_le_mem (f : Tile → Nat) :
    ∀ (l : List Tile) (init : Nat), ∀ tl ∈ l,
      l.foldl (fun m tl => min m (f tl)) init ≤ f tl := by
  intro l
  induction l with
  | nil => intro init tl h; simp at h
  | cons y ys ih =>
    intro init tl h
    rcases List.mem_cons.mp h with h | h
    · calc (y :: ys).foldl (fun m tl => min m (f tl)) init
          = ys.foldl (fun m tl => min m (f tl)) (min init (f y)) := rfl
        _ ≤ min init (f y) := foldl_min_le_init f ys _
        _ ≤ f y := Nat.min_le_right _ _
        _ = f tl := by rw [h]
    · exact ih (min init (f y)) tl h

lemma getD_mem {α : Type} (l : List α) (i : Nat) (d : α) (hd : d ∈ l) :
    l.getD i d ∈ l := by
  rw [List.getD_eq_getElem?_getD]
  by_cases h : i < l.length
  · rw [List.getElem?_eq_getElem h]
    exact List.getElem_mem h
  · rw [List.getElem?_eq_none (by omega)]
    exact hd

/-! ### Greedy strategy: any returned path is a chain of greedy moves -/

lemma ExampleAgent.loop_found_valid_greedy (g : Grid) (goal : Coord)
    (choice : Nat → Nat) :
    ∀ (fuel : Nat) (nodes p : List Coord),
      nodes ≠ [] →
      List.Chain' (GreedyStep g goal) nodes →
      ExampleAgent.loop g goal choice fuel nodes = .found p →
      p.head? = nodes.head? ∧ p.getLast? = some goal ∧
        List.Chain' (GreedyStep g goal) p := by
  intro fuel
  induction fuel with
  | zero =>
    intro nodes p hne hchain hrun
    simp only [ExampleAgent.loop] at hrun
    by_cases hg : nodes.getLastD (0, 0) = goal
    · rw [if_pos hg] at hrun
      simp only [SearchResult.found.injEq] at hrun
      subst hrun
      exact ⟨rfl, by rw [getLast?_eq_some_getLastD hne (0, 0), hg], hchain⟩
    · rw [if_neg hg] at hrun
      simp at hrun
  | succ fuel ih =>
    intro nodes p hne hchain hrun
    simp only [ExampleAgent.loop] at hrun
    by_cases hg : nodes.getLastD (0, 0) = goal
    · rw [if_pos hg] at hrun
      simp only [SearchResult.found.injEq] at hrun
      subst hrun
      exact ⟨rfl, by rw [getLast?_eq_some_getLastD hne (0, 0), hg], hchain⟩
    · rw [if_neg hg] at hrun
      rcases hnb : g.neighbors4 (nodes.getLastD (0, 0)).1
          (nodes.getLastD (0, 0)).2 with _ | ⟨n, ns⟩
      · rw [hnb] at hrun; simp at hrun
      · rw [hnb] at hrun
        simp only [] at hrun
        rcases hfil : (n :: ns).filter
            (fun tl => decide (g.manhattan tl.pos goal =
              (n :: ns).foldl (fun m tl => min m (g.manhattan tl.pos goal))
                (g.manhattan n.pos goal))) with _ | ⟨b, bs⟩
        · rw [hfil] at hrun; simp at hrun
        · rw [hfil] at hrun
          simp only [] at hrun
          set sel := (b :: bs).getD (choice fuel % (bs.length + 1)) b with hsel
          have hselmem : sel ∈ b :: bs :=
            getD_mem _ _ _ (List.mem_cons_self _ _)
          have hselfil := List.mem_filter.mp (hfil ▸ hselmem)
          have hselnb : sel ∈ g.neighbors4 (nodes.getLastD (0, 0)).1
              (nodes.getLastD (0, 0)).2 := hnb ▸ hselfil.1
          have hseldist : g.manhattan sel.pos goal =
              (n :: ns).foldl (fun m tl => min m (g.manhattan tl.pos goal))
                (g.manhattan n.pos goal) := by
            have := hselfil.2
            simpa using this
          have hstep : GreedyStep g goal (nodes.getLastD (0, 0)) sel.pos := by
            refine ⟨⟨sel, hselnb, rfl⟩, ?_⟩
            intro tl htl
            rw [hseldist]
            exact foldl_min_le_mem _ (n :: ns) _ tl (hnb ▸ htl)
          have hchain' : List.Chain' (GreedyStep g goal)
              (nodes ++ [sel.pos]) := by
            rw [List.chain'_append]
            refine ⟨hchain, List.chain'_singleton _, ?_⟩
            intro x hx y hy
            rw [getLast?_eq_some_getLastD hne (0, 0)] at hx
            simp only [Option.mem_def, Option.some.injEq] at hx
            simp only [List.head?_cons, Option.mem_def, Option.some.injEq] at hy
            rw [← hx, ← hy] at *
            exact hx ▸ hy ▸ hstep
          have hres := ih (nodes ++ [sel.pos]) p (by simp) hchain' hrun
          refine ⟨?_, hres.2.1, hres.2.2⟩
          rw [hres.1]
          cases nodes with
      | nil => exact absurd rfl hne
      | cons a nodes' => simp

/-! ### Greedy strategy: stepping through a corridor cell -/

lemma ExampleAgent.loop_singleton_step (g : Grid) (goal : Coord)
    (choice : Nat → Nat) (fuel : Nat) (nodes : List Coord) (tl : Tile)
    (hne : nodes.getLastD (0, 0) ≠ goal)
    (hnb : g.neighbors4 (nodes.getLastD (0, 0)).1
      (nodes.getLastD (0, 0)).2 = [tl]) :
    ExampleAgent.loop g goal choice (fuel + 1) nodes =
      ExampleAgent.loop g goal choice fuel (nodes ++ [tl.pos]) := by
  conv_lhs => rw [ExampleAgent.loop]
  rw [if_neg hne, hnb]
  simp [Nat.mod_one]

lemma ExampleAgent.find_path_self (g : Grid) (s : Coord)
    (choice : Nat → Nat) (fuel : Nat) :
    ExampleAgent.find_path g s s choice fuel = .found [s] := by
  cases fuel <;> simp [ExampleAgent.find_path, ExampleAgent.loop]

/-! ### The walled grid: the greedy loop oscillates forever -/

lemma walled_greedy_loop (choice : Nat → Nat) :
    ∀ (fuel : Nat) (nodes : List Coord),
      (nodes.getLastD (0, 0) = ((0 : Nat), (0 : Nat)) ∨
        nodes.getLastD (0, 0) = ((1 : Nat), (0 : Nat))) →
      ExampleAgent.loop walledGrid ((0 : Nat), (2 : Nat)) choice fuel nodes =
        .outOfFuel := by
  intro fuel
  induction fuel with
  | zero =>
    intro nodes h
    rw [ExampleAgent.loop]
    rcases h with h | h <;> rw [h, if_neg (by decide)]
  | succ fuel ih =>
    intro nodes h
    rcases h with h | h
    · rw [ExampleAgent.loop_singleton_step _ _ _ _ _ ⟨(1, 0), 1⟩
        (by rw [h]; decide) (by rw [h]; decide)]
      exact ih _ (Or.inr (by simp))
    · rw [ExampleAgent.loop_singleton_step _ _ _ _ _ ⟨(0, 0), 1⟩
        (by rw [h]; decide) (by rw [h]; decide)]
      exact ih _ (Or.inl (by simp))

/-! ### Branch-and-bound: pool invariants -/

/-- Well-formedness of a frontier entry: its path is a non-empty simple
chain from `s` and its recorded cost is the start tile's entry cost plus
the movement cost of the path. -/
def BInv (g : Grid) (s : Coord) (c : BCand) : Prop :=
  c.path ≠ [] ∧ c.path.head? = some s ∧ List.Chain' g.adj c.path ∧
    c.path.Nodup ∧ c.cost = g.tileCost s.1 s.2 + pathCost g c.path

/-- The pool covers every simple route to the goal: some entry's path is a
prefix of it. -/
def BCover (g : Grid) (s t : Coord) (pool : List BCand) : Prop :=
  ∀ Q, SimpleRoute g s t Q → ∃ c ∈ pool, ∃ r, c.path ++ r = Q

lemma bnb_expand_inv {g : Grid} {s : Coord} {best : BCand}
    (hb : BInv g s best) :
    ∀ c ∈ BranchAndBoundAgent.expand g best, BInv g s c := by
  intro c hc
  simp only [BranchAndBoundAgent.expand] at hc
  obtain ⟨nb, hnb, hite⟩ := List.mem_filterMap.mp hc
  by_cases hmem : nb.pos ∈ best.path
  · rw [if_pos hmem] at hite; simp at hite
  · rw [if_neg hmem] at hite
    simp only [Option.some.injEq] at hite
    subst hite
    have hlast : best.path.getLast? = some (best.path.getLastD (0, 0)) :=
      getLast?_eq_some_getLastD hb.1 _
    refine ⟨by simp, ?_, ?_, ?_, ?_⟩
    · show (best.path ++ [nb.pos]).head? = some s
      cases hp : best.path with
      | nil => exact absurd hp hb.1
      | cons a p' =>
        have h := hb.2.1
        rw [hp] at h
        simpa using h
    · rw [List.chain'_append]
      refine ⟨hb.2.2.1, List.chain'_singleton _, ?_⟩
      intro y hy z hz
      simp only [Option.mem_def] at hy hz
      rw [hlast, Option.some.injEq] at hy
      simp only [List.head?_cons, Option.some.injEq] at hz
      rw [← hy, ← hz]
      exact adj_of_mem_neighbors hnb
    · rw [List.nodup_append]
      refine ⟨hb.2.2.2.1, List.nodup_singleton _, ?_⟩
      intro a ha hb'
      simp only [List.mem_singleton] at hb'
      exact hmem (hb' ▸ ha)
    · have hcost := hb.2.2.2.2
      have hnb_cost := neighbors4_cost hnb
      rw [pathCost_concat nb.pos hb.1]
      simp only
      omega

/-! ### Branch-and-bound: the main loop specification -/

lemma BranchAndBoundAgent.loop_spec_bnb (g : Grid) (s t : Coord) :
    ∀ (fuel : Nat) (pool : List BCand) (p : List Coord),
      (∀ c ∈ pool, BInv g s c) →
      BCover g s t pool →
      BranchAndBoundAgent.loop g t fuel pool = .found p →
      (p = [] → ¬ Reachable g s t) ∧
      (p ≠ [] → SimpleRoute g s t p ∧
        ∀ Q, SimpleRoute g s t Q → pathCost g p ≤ pathCost g Q) := by
  intro fuel
  induction fuel with
  | zero =>
    intro pool p hinv hcov hrun
    cases pool with
    | nil =>
      simp only [BranchAndBoundAgent.loop, SearchResult.found.injEq] at hrun
      subst hrun
      refine ⟨fun _ => ?_, fun h => absurd rfl h⟩
      rintro ⟨Q, hQ⟩
      obtain ⟨c, hc, _⟩ := hcov Q hQ
      simp at hc
    | cons x xs => simp [BranchAndBoundAgent.loop] at hrun
  | succ fuel ih =>
    intro pool p hinv hcov hrun
    cases pool with
    | nil =>
      simp only [BranchAndBoundAgent.loop, SearchResult.found.injEq] at hrun
      subst hrun
      refine ⟨fun _ => ?_, fun h => absurd rfl h⟩
      rintro ⟨Q, hQ⟩
      obtain ⟨c, hc, _⟩ := hcov Q hQ
      simp at hc
    | cons x xs =>
      simp only [BranchAndBoundAgent.loop] at hrun
      have hbestmem : bnbBest x xs ∈ x :: xs := bnbBest_mem x xs
      have hbestinv := hinv _ hbestmem
      by_cases hg : (bnbBest x xs).path.getLastD (0, 0) = t
      · rw [if_pos hg] at hrun
        simp only [SearchResult.found.injEq] at hrun
        subst hrun
        have hne := hbestinv.1
        have hroute : SimpleRoute g s t (bnbBest x xs).path :=
          ⟨hbestinv.2.1,
            by rw [getLast?_eq_some_getLastD hne (0, 0), hg],
            hbestinv.2.2.1, hbestinv.2.2.2.1⟩
        refine ⟨fun h => absurd h hne, fun _ => ⟨hroute, ?_⟩⟩
        intro Q hQ
        obtain ⟨c, hcmem, r, hr⟩ := hcov Q hQ
        have hcinv := hinv c hcmem
        have hnotlt := bnbBest_not_lt x xs c hcmem
        have h1 : (bnbBest x xs).cost ≤ c.cost := klt_fst_le hnotlt
        have hcle : pathCost g c.path ≤ pathCost g Q := by
          rw [← hr, pathCost_append r hcinv.1]
          exact Nat.le_add_right _ _
        have e1 := hbestinv.2.2.2.2
        have e2 := hcinv.2.2.2.2
        omega
      · rw [if_neg hg] at hrun
        refine ih _ p ?_ ?_ hrun
        · intro c hc
          rcases List.mem_append.mp hc with h | h
          · exact hinv c (List.mem_of_mem_erase h)
          · exact bnb_expand_inv hbestinv c h
        · intro Q hQ
          obtain ⟨c, hcmem, r, hr⟩ := hcov Q hQ
          by_cases hcb : c = bnbBest x xs
          · subst hcb
            cases r with
            | nil =>
              exfalso
              rw [List.append_nil] at hr
              apply hg
              have hlastQ : (bnbBest x xs).path.getLast? = some t := by
                rw [hr]; exact hQ.2.1
              rw [getLast?_eq_some_getLastD hbestinv.1 (0, 0)] at hlastQ
              exact Option.some.inj hlastQ
            | cons e r' =>
              have hchainQ : List.Chain' g.adj
                  ((bnbBest x xs).path ++ e :: r') := by
                rw [hr]; exact hQ.2.2.1
              have hndQ : ((bnbBest x xs).path ++ e :: r').Nodup := by
                rw [hr]; exact hQ.2.2.2
              have hjun := (List.chain'_append.mp hchainQ).2.2
              have hlast : (bnbBest x xs).path.getLast? =
                  some ((bnbBest x xs).path.getLastD (0, 0)) :=
                getLast?_eq_some_getLastD hbestinv.1 _
              have hadj : g.adj ((bnbBest x xs).path.getLastD (0, 0)) e :=
                hjun _ (by rw [hlast]; rfl) e (by simp)
              have henotin : e ∉ (bnbBest x xs).path := by
                intro hmem
                exact (List.nodup_append.mp hndQ).2.2 hmem (by simp)
              obtain ⟨tl, htl, hpos⟩ := hadj
              refine ⟨⟨(bnbBest x xs).path ++ [e],
                (bnbBest x xs).cost + tl.cost⟩, ?_, r', by
                rw [List.append_assoc]; exact hr⟩
              refine List.mem_append_right _ ?_
              simp only [BranchAndBoundAgent.expand]
              refine List.mem_filterMap.mpr ⟨tl, htl, ?_⟩
              rw [if_neg (by rw [hpos]; exact henotin), hpos]
          · exact ⟨c, List.mem_append_left _
              ((List.mem_erase_of_ne hcb).mpr hcmem), r, hr⟩

/-! ### A*: pool invariants -/

/-- Well-formedness of an A* frontier entry: valid simple path from `s`,
`gcost` bookkeeping as in branch-and-bound, and `hcost` equal to the
Manhattan distance from the path's last cell to the goal. -/
def AInv (g : Grid) (s t : Coord) (c : ACand) : Prop :=
  c.path ≠ [] ∧ c.path.head? = some s ∧ List.Chain' g.adj c.path ∧
    c.path.Nodup ∧ c.gcost = g.tileCost s.1 s.2 + pathCost g c.path ∧
    c.hcost = g.manhattan (c.path.getLastD (0, 0)) t

/-- The A* pool covers every simple route to the goal. -/
def ACover (g : Grid) (s t : Coord) (pool : List ACand) : Prop :=
  ∀ Q, SimpleRoute g s t Q → ∃ c ∈ pool, ∃ r, c.path ++ r = Q

lemma astar_expand_inv {g : Grid} {s t : Coord} {best : ACand}
    (hb : AInv g s t best) :
    ∀ c ∈ AStar.expand g t best, AInv g s t c := by
  intro c hc
  simp only [AStar.expand] at hc
  obtain ⟨nb, hnb, hite⟩ := List.mem_filterMap.mp hc
  by_cases hmem : nb.pos ∈ best.path
  · rw [if_pos hmem] at hite; simp at hite
  · rw [if_neg hmem] at hite
    simp only [Option.some.injEq] at hite
    subst hite
    have hlast : best.path.getLast? = some (best.path.getLastD (0, 0)) :=
      getLast?_eq_some_getLastD hb.1 _
    refine ⟨by simp, ?_, ?_, ?_, ?_, by simp⟩
    · show (best.path ++ [nb.pos]).head? = some s
      cases hp : best.path with
      | nil => exact absurd hp hb.1
      | cons a p' =>
        have h := hb.2.1
        rw [hp] at h
        simpa using h
    · rw [List.chain'_append]
      refine ⟨hb.2.2.1, List.chain'_singleton _, ?_⟩
      intro y hy z hz
      simp only [Option.mem_def] at hy hz
      rw [hlast, Option.some.injEq] at hy
      simp only [List.head?_cons, Option.some.injEq] at hz
      rw [← hy, ← hz]
      exact adj_of_mem_neighbors hnb
    · rw [List.nodup_append]
      refine ⟨hb.2.2.2.1, List.nodup_singleton _, ?_⟩
      intro a ha hb'
      simp only [List.mem_singleton] at hb'
      exact hmem (hb' ▸ ha)
    · have hcost := hb.2.2.2.2.1
      have hnb_cost := neighbors4_cost hnb
      rw [pathCost_concat nb.pos hb.1]
      simp only
      omega

/-! ### A*: the main loop specification -/

lemma AStar.loop_spec_astar (g : Grid) (s t : Coord) :
    ∀ (fuel : Nat) (pool : List ACand) (p : List Coord),
      (∀ c ∈ pool, AInv g s t c) →
      ACover g s t pool →
      AStar.loop g t fuel pool = .found p →
      (p = [] → ¬ Reachable g s t) ∧
      (p ≠ [] → SimpleRoute g s t p ∧
        ((∀ r c, 1 ≤ g.tileCost r c) →
          ∀ Q, SimpleRoute g s t Q → pathCost g p ≤ pathCost g Q)) := by
  intro fuel
  induction fuel with
  | zero =>
    intro pool p hinv hcov hrun
    cases pool with
    | nil =>
      simp only [AStar.loop, SearchResult.found.injEq] at hrun
      subst hrun
      refine ⟨fun _ => ?_, fun h => absurd rfl h⟩
      rintro ⟨Q, hQ⟩
      obtain ⟨c, hc, _⟩ := hcov Q hQ
      simp at hc
    | cons x xs => simp [AStar.loop] at hrun
  | succ fuel ih =>
    intro pool p hinv hcov hrun
    cases pool with
    | nil =>
      simp only [AStar.loop, SearchResult.found.injEq] at hrun
      subst hrun
      refine ⟨fun _ => ?_, fun h => absurd rfl h⟩
      rintro ⟨Q, hQ⟩
      obtain ⟨c, hc, _⟩ := hcov Q hQ
      simp at hc
    | cons x xs =>
      simp only [AStar.loop] at hrun
      have hbestmem : aBest x xs ∈ x :: xs := aBest_mem x xs
      have hbestinv := hinv _ hbestmem
      by_cases hg : (aBest x xs).path.getLastD (0, 0) = t
      · rw [if_pos hg] at hrun
        simp only [SearchResult.found.injEq] at hrun
        subst hrun
        have hne := hbestinv.1
        have hroute : SimpleRoute g s t (aBest x xs).path :=
          ⟨hbestinv.2.1,
            by rw [getLast?_eq_some_getLastD hne (0, 0), hg],
            hbestinv.2.2.1, hbestinv.2.2.2.1⟩
        refine ⟨fun h => absurd h hne, fun _ => ⟨hroute, ?_⟩⟩
        intro hpos Q hQ
        obtain ⟨c, hcmem, r, hr⟩ := hcov Q hQ
        have hcinv := hinv c hcmem
        have hnotlt := aBest_not_lt x xs c hcmem
        have h1 : (aBest x xs).gcost + (aBest x xs).hcost ≤
            c.gcost + c.hcost := klt_fst_le hnotlt
        have hbesth : (aBest x xs).hcost = 0 := by
          rw [hbestinv.2.2.2.2.2, hg, manhattan_self]
        have hkey : c.gcost + c.hcost ≤
            g.tileCost s.1 s.2 + pathCost g Q := by
          cases r with
          | nil =>
            rw [List.append_nil] at hr
            have hlastc : c.path.getLast? = some t := by
              rw [hr]; exact hQ.2.1
            rw [getLast?_eq_some_getLastD hcinv.1 (0, 0)] at hlastc
            have hch : c.hcost = 0 := by
              rw [hcinv.2.2.2.2.2, Option.some.inj hlastc, manhattan_self]
            have := hcinv.2.2.2.2.1
            rw [hr] at this
            omega
          | cons e r' =>
            have hchainQ : List.Chain' g.adj (c.path ++ e :: r') := by
              rw [hr]; exact hQ.2.2.1
            have hjun := (List.chain'_append.mp hchainQ).2.2
            have hlastc : c.path.getLast? =
                some (c.path.getLastD (0, 0)) :=
              getLast?_eq_some_getLastD hcinv.1 _
            have hadj : g.adj (c.path.getLastD (0, 0)) e :=
              hjun _ (by rw [hlastc]; rfl) e (by simp)
            have hchainseg : List.Chain' g.adj
                (c.path.getLastD (0, 0) :: e :: r') :=
              List.chain'_cons.mpr ⟨hadj, (List.chain'_append.mp hchainQ).2.1⟩
            have hlastseg : (c.path.getLastD (0, 0) :: e :: r').getLast? =
                some t := by
              rw [List.getLast?_cons_cons]
              have : Q.getLast? = some t := hQ.2.1
              rw [← hr, List.getLast?_append_of_ne_nil _ (by simp)] at this
              exact this
            have hman : g.manhattan (c.path.getLastD (0, 0)) t ≤
                (e :: r').length :=
              manhattan_le_length (e :: r') _ hchainseg hlastseg
            have hseg : (e :: r').length ≤ segCost g (e :: r') :=
              length_le_segCost hpos _
            have hQcost : pathCost g Q =
                pathCost g c.path + segCost g (e :: r') := by
              rw [← hr, pathCost_append _ hcinv.1]
            have hcg := hcinv.2.2.2.2.1
            have hch := hcinv.2.2.2.2.2
            omega
        have e1 := hbestinv.2.2.2.2.1
        omega
      · rw [if_neg hg] at hrun
        refine ih _ p ?_ ?_ hrun
        · intro c hc
          rcases List.mem_append.mp hc with h | h
          · exact hinv c (List.mem_of_mem_erase h)
          · exact astar_expand_inv hbestinv c h
        · intro Q hQ
          obtain ⟨c, hcmem, r, hr⟩ := hcov Q hQ
          by_cases hcb : c = aBest x xs
          · subst hcb
            cases r with
            | nil =>
              exfalso
              rw [List.append_nil] at hr
              apply hg
              have hlastQ : (aBest x xs).path.getLast? = some t := by
                rw [hr]; exact hQ.2.1
              rw [getLast?_eq_some_getLastD hbestinv.1 (0, 0)] at hlastQ
              exact Option.some.inj hlastQ
            | cons e r' =>
              have hchainQ : List.Chain' g.adj
                  ((aBest x xs).path ++ e :: r') := by
                rw [hr]; exact hQ.2.2.1
              have hndQ : ((aBest x xs).path ++ e :: r').Nodup := by
                rw [hr]; exact hQ.2.2.2
              have hjun := (List.chain'_append.mp hchainQ).2.2
              have hlast : (aBest x xs).path.getLast? =
                  some ((aBest x xs).path.getLastD (0, 0)) :=
                getLast?_eq_some_getLastD hbestinv.1 _
              have hadj : g.adj ((aBest x xs).path.getLastD (0, 0)) e :=
                hjun _ (by rw [hlast]; rfl) e (by simp)
              have henotin : e ∉ (aBest x xs).path := by
                intro hmem
                exact (List.nodup_append.mp hndQ).2.2 hmem (by simp)
              obtain ⟨tl, htl, hpos'⟩ := hadj
              refine ⟨⟨(aBest x xs).path ++ [e],
                (aBest x xs).gcost + tl.cost, g.manhattan e t⟩, ?_, r', by
                rw [List.append_assoc]; exact hr⟩
              refine List.mem_append_right _ ?_
              simp only [AStar.expand]
              refine List.mem_filterMap.mpr ⟨tl, htl, ?_⟩
              rw [if_neg (by rw [hpos']; exact henotin), hpos']
          · exact ⟨c, List.mem_append_left _
              ((List.mem_erase_of_ne hcb).mpr hcmem), r, hr⟩

/-! ### Wrappers: from `find_path` to the loop specifications -/

lemma DFSAgent.find_path_valid {g : Grid} {s t : Coord} {fuel : Nat}
    {p : List Coord} (hrun : DFSAgent.find_path g s t fuel = .found p)
    (hne : p ≠ []) : SimpleRoute g s t p := by
  have h := DFSAgent.loop_found_valid_dfs g t s fuel [s] [s] p
    (fun _ => rfl) (List.chain'_singleton s) (List.nodup_singleton s)
    (fun v hv => hv) hrun hne
  exact ⟨h.1, h.2.1, h.2.2.1, h.2.2.2⟩

lemma BranchAndBoundAgent.find_path_spec_bnb {g : Grid} {s t : Coord}
    {fuel : Nat} {p : List Coord}
    (hrun : BranchAndBoundAgent.find_path g s t fuel = .found p) :
    (p = [] → ¬ Reachable g s t) ∧
    (p ≠ [] → SimpleRoute g s t p ∧
      ∀ Q, SimpleRoute g s t Q → pathCost g p ≤ pathCost g Q) := by
  refine BranchAndBoundAgent.loop_spec_bnb g s t fuel _ p ?_ ?_ hrun
  · intro c hc
    simp only [List.mem_singleton] at hc
    subst hc
    exact ⟨by simp, rfl, List.chain'_singleton s, List.nodup_singleton s,
      by simp [Grid.get, pathCost, segCost]⟩
  · intro Q hQ
    refine ⟨⟨[s], (g.get s.1 s.2).cost⟩, List.mem_singleton_self _,
      Q.tail, ?_⟩
    cases Q with
    | nil => exact absurd hQ.1 (by simp)
    | cons a Q' =>
      have := hQ.1
      simp only [List.head?_cons, Option.some.injEq] at this
      simp [this]

lemma AStar.find_path_spec_astar {g : Grid} {s t : Coord} {fuel : Nat}
    {q : List Coord}
    (hrun : AStar.find_path g s t fuel = .found q) :
    (q = [] → ¬ Reachable g s t) ∧
    (q ≠ [] → SimpleRoute g s t q ∧
      ((∀ r c, 1 ≤ g.tileCost r c) →
        ∀ Q, SimpleRoute g s t Q → pathCost g q ≤ pathCost g Q)) := by
  refine AStar.loop_spec_astar g s t fuel _ q ?_ ?_ hrun
  · intro c hc
    simp only [List.mem_singleton] at hc
    subst hc
    exact ⟨by simp, rfl, List.chain'_singleton s, List.nodup_singleton s,
      by simp [Grid.get, pathCost, segCost], by simp⟩
  · intro Q hQ
    refine ⟨⟨[s], (g.get s.1 s.2).cost, g.manhattan s t⟩,
      List.mem_singleton_self _, Q.tail, ?_⟩
    cases Q with
    | nil => exact absurd hQ.1 (by simp)
    | cons a Q' =>
      have := hQ.1
      simp only [List.head?_cons, Option.some.injEq] at this
      simp [this]

/-! ### Claim theorems -/

/-- Claim C1: for every grid, start, and goal, a non-empty Path returned
by the DFS, branch-and-bound, or A* strategy starts at `start`, ends at
`goal`, moves only between 4-adjacent cells, and repeats no coordinate. -/
theorem strategies_return_valid_paths (g : Grid) (s t : Coord)
    (f₁ f₂ f₃ : Nat) (p : List Coord) :
    (DFSAgent.find_path g s t f₁ = .found p → p ≠ [] →
      SimpleRoute g s t p) ∧
    (BranchAndBoundAgent.find_path g s t f₂ = .found p → p ≠ [] →
      SimpleRoute g s t p) ∧
    (AStar.find_path g s t f₃ = .found p → p ≠ [] →
      SimpleRoute g s t p) :=
  ⟨fun h hne => DFSAgent.find_path_valid h hne,
    fun h hne => ((BranchAndBoundAgent.find_path_spec_bnb h).2 hne).1,
    fun h hne => ((AStar.find_path_spec_astar h).2 hne).1⟩

/-- Witness for C1 at a concrete 2×2 grid run. -/
theorem strategies_return_valid_paths_witness :
    SimpleRoute unitGrid2 (0, 0) (1, 1) [(0, 0), (0, 1), (1, 1)] :=
  (strategies_return_valid_paths unitGrid2 (0, 0) (1, 1) 4 4 4
    [(0, 0), (0, 1), (1, 1)]).1 (by decide) (by decide)

/-- Claim C2 counterexample: on an all-passable 3×4 grid with zero-cost
tiles, A* (whose Manhattan heuristic then overestimates the remaining
cost) returns the direct route of cost 3 even though a simple route of
cost 0 exists, so its returned cost is not the minimum. -/
theorem astar_zero_cost_suboptimal_cex :
    AStar.find_path zeroCostGrid (0, 2) (0, 0) 4 =
      .found [(0, 2), (0, 1), (0, 0)] ∧
    SimpleRoute zeroCostGrid (0, 2) (0, 0)
      [(0, 2), (0, 3), (1, 3), (2, 3), (2, 2), (2, 1), (2, 0), (1, 0),
        (0, 0)] ∧
    pathCost zeroCostGrid
      [(0, 2), (0, 3), (1, 3), (2, 3), (2, 2), (2, 1), (2, 0), (1, 0),
        (0, 0)] <
      pathCost zeroCostGrid [(0, 2), (0, 1), (0, 0)] :=
  ⟨by decide, by decide, by decide⟩

/-- Claim C2 (amended): on every finite grid with non-negative tile costs
on which a route exists, branch-and-bound's returned Path is non-empty and
its total cost is the minimum over all simple routes; A*'s returned Path
is likewise optimal provided every tile cost is positive (with zero-cost
tiles the Manhattan heuristic can overestimate and A* may return a
costlier Path). -/
theorem bnb_astar_optimality (g : Grid) (s t : Coord) (f₁ f₂ : Nat)
    (p q : List Coord) :
    (BranchAndBoundAgent.find_path g s t f₁ = .found p →
      Reachable g s t →
      p ≠ [] ∧ SimpleRoute g s t p ∧
        ∀ Q, SimpleRoute g s t Q → pathCost g p ≤ pathCost g Q) ∧
    ((∀ r c, 1 ≤ g.tileCost r c) →
      AStar.find_path g s t f₂ = .found q → Reachable g s t →
      q ≠ [] ∧ SimpleRoute g s t q ∧
        ∀ Q, SimpleRoute g s t Q → pathCost g q ≤ pathCost g Q) := by
  constructor
  · intro h hreach
    have hs := BranchAndBoundAgent.find_path_spec_bnb h
    have hne : p ≠ [] := fun hnil => (hs.1 hnil) hreach
    exact ⟨hne, (hs.2 hne).1, (hs.2 hne).2⟩
  · intro hpos h hreach
    have hs := AStar.find_path_spec_astar h
    have hne : q ≠ [] := fun hnil => (hs.1 hnil) hreach
    exact ⟨hne, (hs.2 hne).1, (hs.2 hne).2 hpos⟩

/-- Witness for the amended C2 on the 2×2 unit-cost grid. -/
theorem bnb_astar_optimality_witness :
    (([(0, 0), (0, 1), (1, 1)] : List Coord) ≠ [] ∧
      SimpleRoute unitGrid2 (0, 0) (1, 1) [(0, 0), (0, 1), (1, 1)] ∧
      ∀ Q, SimpleRoute unitGrid2 (0, 0) (1, 1) Q →
        pathCost unitGrid2 [(0, 0), (0, 1), (1, 1)] ≤ pathCost unitGrid2 Q) ∧
    (([(0, 0), (0, 1), (1, 1)] : List Coord) ≠ [] ∧
      SimpleRoute unitGrid2 (0, 0) (1, 1) [(0, 0), (0, 1), (1, 1)] ∧
      ∀ Q, SimpleRoute unitGrid2 (0, 0) (1, 1) Q →
        pathCost unitGrid2 [(0, 0), (0, 1), (1, 1)] ≤ pathCost unitGrid2 Q) :=
  ⟨(bnb_astar_optimality unitGrid2 (0, 0) (1, 1) 4 4
      [(0, 0), (0, 1), (1, 1)] [(0, 0), (0, 1), (1, 1)]).1 (by decide)
      ⟨[(0, 0), (0, 1), (1, 1)], by decide⟩,
    (bnb_astar_optimality unitGrid2 (0, 0) (1, 1) 4 4
      [(0, 0), (0, 1), (1, 1)] [(0, 0), (0, 1), (1, 1)]).2
      (fun _ _ => Nat.le_refl 1) (by decide)
      ⟨[(0, 0), (0, 1), (1, 1)], by decide⟩⟩

/-- Claim C3 counterexample: on the zero-cost 3×4 grid the two strategies
return Paths of different total cost (0 for branch-and-bound, 3 for A*). -/
theorem bnb_astar_cost_disagreement_cex :
    BranchAndBoundAgent.find_path zeroCostGrid (0, 2) (0, 0) 9 =
      .found [(0, 2), (0, 3), (1, 3), (2, 3), (2, 2), (2, 1), (2, 0),
        (1, 0), (0, 0)] ∧
    AStar.find_path zeroCostGrid (0, 2) (0, 0) 4 =
      .found [(0, 2), (0, 1), (0, 0)] ∧
    pathCost zeroCostGrid
      [(0, 2), (0, 3), (1, 3), (2, 3), (2, 2), (2, 1), (2, 0), (1, 0),
        (0, 0)] ≠
      pathCost zeroCostGrid [(0, 2), (0, 1), (0, 0)] :=
  ⟨by decide, by decide, by decide⟩

/-- Claim C3 (amended): whenever both searches return, they return an
empty Path exactly when no route exists; branch-and-bound's total cost
never exceeds A*'s, and the two costs coincide whenever every tile cost is
positive (they may differ in the presence of zero-cost tiles). -/
theorem bnb_astar_agreement (g : Grid) (s t : Coord) (f₁ f₂ : Nat)
    (p q : List Coord)
    (h₁ : BranchAndBoundAgent.find_path g s t f₁ = .found p)
    (h₂ : AStar.find_path g s t f₂ = .found q) :
    (p = [] ↔ ¬ Reachable g s t) ∧ (q = [] ↔ ¬ Reachable g s t) ∧
    pathCost g p ≤ pathCost g q ∧
    ((∀ r c, 1 ≤ g.tileCost r c) → pathCost g p = pathCost g q) := by
  have hb := BranchAndBoundAgent.find_path_spec_bnb h₁
  have ha := AStar.find_path_spec_astar h₂
  have hip : p = [] ↔ ¬ Reachable g s t := by
    constructor
    · exact hb.1
    · intro hnr
      by_contra hne
      exact hnr (reachable_of_route ((hb.2 hne).1))
  have hiq : q = [] ↔ ¬ Reachable g s t := by
    constructor
    · exact ha.1
    · intro hnr
      by_contra hne
      exact hnr (reachable_of_route ((ha.2 hne).1))
  have hle : pathCost g p ≤ pathCost g q := by
    by_cases hq : q = []
    · have hp : p = [] := hip.mpr (hiq.mp hq)
      rw [hp, hq]
    · have hreach : Reachable g s t := by
        by_contra hnr
        exact hq (hiq.mpr hnr)
      have hp : p ≠ [] := fun h => (hip.mp h) hreach
      exact (hb.2 hp).2 q ((ha.2 hq).1)
  refine ⟨hip, hiq, hle, ?_⟩
  intro hpos
  by_cases hq : q = []
  · have hp : p = [] := hip.mpr (hiq.mp hq)
    rw [hp, hq]
  · have hreach : Reachable g s t := by
      by_contra hnr
      exact hq (hiq.mpr hnr)
    have hp : p ≠ [] := fun h => (hip.mp h) hreach
    have hrec1 := (hb.2 hp).2 q ((ha.2 hq).1)
    have hrec2 := ((ha.2 hq).2 hpos) p ((hb.2 hp).1)
    omega

/-- Witness for the amended C3 on the 2×2 unit-cost grid. -/
theorem bnb_astar_agreement_witness :
    (([(0, 0), (0, 1), (1, 1)] : List Coord) = [] ↔
      ¬ Reachable unitGrid2 (0, 0) (1, 1)) ∧
    (([(0, 0), (0, 1), (1, 1)] : List Coord) = [] ↔
      ¬ Reachable unitGrid2 (0, 0) (1, 1)) ∧
    pathCost unitGrid2 [(0, 0), (0, 1), (1, 1)] ≤
      pathCost unitGrid2 [(0, 0), (0, 1), (1, 1)] ∧
    ((∀ r c, 1 ≤ unitGrid2.tileCost r c) →
      pathCost unitGrid2 [(0, 0), (0, 1), (1, 1)] =
        pathCost unitGrid2 [(0, 0), (0, 1), (1, 1)]) :=
  bnb_astar_agreement unitGrid2 (0, 0) (1, 1) 4 4
    [(0, 0), (0, 1), (1, 1)] [(0, 0), (0, 1), (1, 1)]
    (by decide) (by decide)

/-- Claim C4: with fuel linear in the grid size the DFS search finishes
(it neither runs out of fuel nor crashes); a non-empty result ends at the
goal, an empty result certifies that the goal cannot be reached, and on
every grid where the goal is unreachable the result is the empty Path. -/
theorem dfs_terminates_bounded (g : Grid) (s t : Coord) (fuel : Nat)
    (hfuel : 2 * (g.height * g.width + 1) + 1 ≤ fuel) :
    DFSAgent.find_path g s t fuel ≠ .outOfFuel ∧
    DFSAgent.find_path g s t fuel ≠ .stuck ∧
    (∀ p, DFSAgent.find_path g s t fuel = .found p →
      (p ≠ [] → p.getLast? = some t) ∧ (p = [] → ¬ Reachable g s t)) ∧
    (¬ Reachable g s t → DFSAgent.find_path g s t fuel = .found []) := by
  have hoof : DFSAgent.loop g t fuel [s] [s] ≠ .outOfFuel := by
    refine DFSAgent.loop_ne_outOfFuel g t s fuel [s] [s]
      (List.nodup_singleton s) (fun v hv => hv)
      (fun v hv => Or.inr (List.mem_singleton.mp hv)) ?_
    simp only [List.length_cons, List.length_nil]
    omega
  have hstuck : DFSAgent.loop g t fuel [s] [s] ≠ .stuck :=
    DFSAgent.loop_ne_stuck g t fuel [s] [s]
  have hfound : ∀ p, DFSAgent.find_path g s t fuel = .found p →
      (p ≠ [] → p.getLast? = some t) ∧ (p = [] → ¬ Reachable g s t) := by
    intro p hp
    constructor
    · intro hne
      exact (DFSAgent.find_path_valid hp hne).2.1
    · intro hnil
      subst hnil
      by_cases hst : s = t
      · exfalso
        subst hst
        cases fuel <;> simp [DFSAgent.find_path, DFSAgent.loop] at hp
      · obtain ⟨V, hV1, hV2, hV3⟩ :=
          DFSAgent.loop_found_nil_closed g t fuel [s] [s]
            (fun v hv hns _ _ => absurd hv hns)
            (fun v hv => hv)
            (fun hm => hst ((List.mem_singleton.mp hm).symm)) hp
        exact closed_not_reachable V (hV1 s (List.mem_singleton_self s))
          hV2 hV3
  refine ⟨hoof, hstuck, hfound, ?_⟩
  intro hnr
  cases hres : DFSAgent.find_path g s t fuel with
  | found p =>
    have hpe : p = [] := by
      by_contra hne
      exact hnr (reachable_of_route (DFSAgent.find_path_valid hres hne))
    rw [hpe]
  | outOfFuel => exact absurd hres hoof
  | stuck => exact absurd hres hstuck

/-- Witness for C4: the walled 2×3 grid, where DFS halts with enough
fuel. -/
theorem dfs_terminates_bounded_witness :
    DFSAgent.find_path walledGrid (0, 0) (0, 2) 15 ≠ .outOfFuel :=
  (dfs_terminates_bounded walledGrid (0, 0) (0, 2) 15 (by decide)).1

/-- On a name different from all four registered ones, `create_agent`
produces the "unknown agent" error with the full list of names. -/
lemma create_agent_unknown {name : String} (h1 : name ≠ "Example")
    (h2 : name ≠ "DFS") (h3 : name ≠ "BranchAndBound")
    (h4 : name ≠ "AStar") :
    create_agent name = .error ("Unknown agent \x27" ++ name ++
      "\x27. Available: Example, DFS, BranchAndBound, AStar") := by
  have hlook : AGENTS.lookup name = none := by
    simp only [AGENTS, List.lookup, beq_eq_false_iff_ne.mpr h1,
      beq_eq_false_iff_ne.mpr h2, beq_eq_false_iff_ne.mpr h3,
      beq_eq_false_iff_ne.mpr h4]
  have htail : ("\x27. Available: " ++
      String.intercalate ", " (AGENTS.map Prod.fst) : String) =
      "\x27. Available: Example, DFS, BranchAndBound, AStar" := rfl
  rw [create_agent, hlook, ← htail, ← String.append_assoc]

/-- Claim C5: `create_agent` fails with the "unknown agent" error listing
the four registered names exactly when the requested name is not
registered, and maps each registered name to its strategy. -/
theorem create_agent_spec (name : String) :
    ((∃ e, create_agent name = .error e) ↔
      name ∉ AGENTS.map Prod.fst) ∧
    (name ∉ AGENTS.map Prod.fst →
      create_agent name = .error ("Unknown agent \x27" ++ name ++
        "\x27. Available: Example, DFS, BranchAndBound, AStar")) ∧
    create_agent "Example" = .ok .exampleAgent ∧
    create_agent "DFS" = .ok .dfsAgent ∧
    create_agent "BranchAndBound" = .ok .branchAndBoundAgent ∧
    create_agent "AStar" = .ok .aStarAgent := by
  by_cases h1 : name = "Example"
  · subst h1
    exact ⟨⟨fun ⟨e, he⟩ => Except.noConfusion he,
      fun hn => absurd (by decide) hn⟩,
      fun hn => absurd (by decide) hn, rfl, rfl, rfl, rfl⟩
  · by_cases h2 : name = "DFS"
    · subst h2
      exact ⟨⟨fun ⟨e, he⟩ => Except.noConfusion he,
        fun hn => absurd (by decide) hn⟩,
        fun hn => absurd (by decide) hn, rfl, rfl, rfl, rfl⟩
    · by_cases h3 : name = "BranchAndBound"
      · subst h3
        exact ⟨⟨fun ⟨e, he⟩ => Except.noConfusion he,
          fun hn => absurd (by decide) hn⟩,
          fun hn => absurd (by decide) hn, rfl, rfl, rfl, rfl⟩
      · by_cases h4 : name = "AStar"
        · subst h4
          exact ⟨⟨fun ⟨e, he⟩ => Except.noConfusion he,
            fun hn => absurd (by decide) hn⟩,
            fun hn => absurd (by decide) hn, rfl, rfl, rfl, rfl⟩
        · have herr := create_agent_unknown h1 h2 h3 h4
          have hnot : name ∉ AGENTS.map Prod.fst := by
            simp [AGENTS, h1, h2, h3, h4]
          exact ⟨⟨fun _ => hnot, fun _ => ⟨_, herr⟩⟩,
            fun _ => herr, rfl, rfl, rfl, rfl⟩

/-- Witness for C5 at a concrete unregistered name. -/
theorem create_agent_spec_witness :
    create_agent "Nope" = .error ("Unknown agent \x27" ++ "Nope" ++
      "\x27. Available: Example, DFS, BranchAndBound, AStar") :=
  (create_agent_spec "Nope").2.1 (by decide)

/-- Claim C6: on the walled 2×3 grid, whose right column cannot be
reached from the left one, the greedy strategy never terminates: whatever
the random choices and however much fuel is granted, the loop is still
running (the current cell keeps oscillating and never equals the goal). -/
theorem greedy_nonterminating_when_goal_walled :
    ¬ Reachable walledGrid (0, 0) (0, 2) ∧
    ∀ (fuel : Nat) (choice : Nat → Nat),
      ExampleAgent.find_path walledGrid (0, 0) (0, 2) choice fuel =
        .outOfFuel := by
  constructor
  · exact closed_not_reachable [(0, 0), (1, 0)] (by decide)
      (by decide) (by decide)
  · intro fuel choice
    exact walled_greedy_loop choice fuel [(0, 0)] (Or.inl (by simp))

/-- Claim C7: DFS is deterministic — no random or order-dependent input
influences its result: however the grid enumerates each cell's neighbors
(any permutation), two runs with identical grid, start, and goal return
the identical Path, equal to the canonical run's result. -/
theorem dfs_deterministic (g : Grid) (s t : Coord) (fuel : Nat)
    (ρ₁ ρ₂ : Coord → List Tile → List Tile)
    (h₁ : ∀ cur l, (ρ₁ cur l).Perm l)
    (h₂ : ∀ cur l, (ρ₂ cur l).Perm l) :
    DFSAgent.find_pathWith g ρ₁ s t fuel =
      DFSAgent.find_pathWith g ρ₂ s t fuel ∧
    DFSAgent.find_pathWith g ρ₁ s t fuel =
      DFSAgent.find_path g s t fuel := by
  have e1 := DFSAgent.loopWith_eq_loop g t ρ₁ h₁ fuel [s] [s]
  have e2 := DFSAgent.loopWith_eq_loop g t ρ₂ h₂ fuel [s] [s]
  constructor
  · rw [DFSAgent.find_pathWith, DFSAgent.find_pathWith, e1, e2]
  · rw [DFSAgent.find_pathWith, DFSAgent.find_path, e1]

/-- Witness for C7: reversing the neighbor enumeration does not change
the DFS result on the 2×2 grid. -/
theorem dfs_deterministic_witness :
    DFSAgent.find_pathWith unitGrid2 (fun _ l => l.reverse) (0, 0) (1, 1) 6 =
      DFSAgent.find_pathWith unitGrid2 (fun _ l => l) (0, 0) (1, 1) 6 :=
  (dfs_deterministic unitGrid2 (0, 0) (1, 1) 6 _ _
    (fun _ l => l.reverse_perm) (fun _ l => List.Perm.refl l)).1

set_option maxHeartbeats 1600000 in
/-- Claim C8: on the 3×3 grid with unit cost on every tile, from `(0,0)`
to `(2,2)`, DFS, branch-and-bound, and A* each return the same 4-move
Path of 5 coordinates whose total movement cost is 4 = 4 × the unit
cost. -/
theorem uniform_grid3_concrete_scenario :
    DFSAgent.find_path unitGrid3 (0, 0) (2, 2) 8 =
      .found [(0, 0), (0, 1), (0, 2), (1, 2), (2, 2)] ∧
    BranchAndBoundAgent.find_path unitGrid3 (0, 0) (2, 2) 16 =
      .found [(0, 0), (0, 1), (0, 2), (1, 2), (2, 2)] ∧
    AStar.find_path unitGrid3 (0, 0) (2, 2) 14 =
      .found [(0, 0), (0, 1), (0, 2), (1, 2), (2, 2)] ∧
    ([(0, 0), (0, 1), (0, 2), (1, 2), (2, 2)] : List Coord).length = 5 ∧
    pathCost unitGrid3 [(0, 0), (0, 1), (0, 2), (1, 2), (2, 2)] = 4 :=
  ⟨by decide, by decide, by decide, by decide, by decide⟩

/-- Claim C9: every Path the greedy strategy actually returns starts at
`start`, ends at `goal`, and each move goes to a 4-neighbor minimizing
Manhattan distance to the goal among the current cell's neighbors,
whatever the random tie-breaking choices were. -/
theorem greedy_terminating_run_valid (g : Grid) (s t : Coord)
    (choice : Nat → Nat) (fuel : Nat) (p : List Coord)
    (hrun : ExampleAgent.find_path g s t choice fuel = .found p) :
    p.head? = some s ∧ p.getLast? = some t ∧
      List.Chain' (GreedyStep g t) p := by
  have h := ExampleAgent.loop_found_valid_greedy g t choice fuel [s] p
    (by simp) (List.chain'_singleton s) hrun
  exact ⟨h.1.trans rfl, h.2.1, h.2.2⟩

/-- Witness for C9 on a 1×2 grid where the greedy walk terminates. -/
theorem greedy_terminating_run_valid_witness :
    ([(0, 0), (0, 1)] : List Coord).head? = some (0, 0) ∧
    ([(0, 0), (0, 1)] : List Coord).getLast? = some (0, 1) ∧
    List.Chain' (GreedyStep rowGrid2 (0, 1)) [(0, 0), (0, 1)] :=
  greedy_terminating_run_valid rowGrid2 (0, 0) (0, 1) (fun _ => 0) 5
    [(0, 0), (0, 1)] (by decide)

/-- Claim C10: when start equals goal every strategy immediately returns
the singleton Path `[start]` — greedy and DFS at any fuel, the two
pool-based searches as soon as they may pop one candidate. -/
theorem start_eq_goal_immediate (g : Grid) (s : Coord)
    (choice : Nat → Nat) (f₁ f₂ f₃ f₄ : Nat)
    (h₃ : 1 ≤ f₃) (h₄ : 1 ≤ f₄) :
    ExampleAgent.find_path g s s choice f₁ = .found [s] ∧
    DFSAgent.find_path g s s f₂ = .found [s] ∧
    BranchAndBoundAgent.find_path g s s f₃ = .found [s] ∧
    AStar.find_path g s s f₄ = .found [s] := by
  refine ⟨ExampleAgent.find_path_self g s choice f₁, ?_, ?_, ?_⟩
  · cases f₂ <;> simp [DFSAgent.find_path, DFSAgent.loop]
  · cases f₃ with
    | zero => omega
    | succ k =>
      simp [BranchAndBoundAgent.find_path, BranchAndBoundAgent.loop,
        bnbBest, pickMin]
  · cases f₄ with
    | zero => omega
    | succ k =>
      simp [AStar.find_path, AStar.loop, aBest, pickMin]

/-- Witness for C10 on the 2×2 grid. -/
theorem start_eq_goal_immediate_witness :
    ExampleAgent.find_path unitGrid2 (0, 0) (0, 0) (fun _ => 0) 3 =
      .found [(0, 0)] ∧
    DFSAgent.find_path unitGrid2 (0, 0) (0, 0) 3 = .found [(0, 0)] ∧
    BranchAndBoundAgent.find_path unitGrid2 (0, 0) (0, 0) 3 =
      .found [(0, 0)] ∧
    AStar.find_path unitGrid2 (0, 0) (0, 0) 3 = .found [(0, 0)] :=
  start_eq_goal_immediate unitGrid2 (0, 0) (fun _ => 0) 3 3 3 3
    (by decide) (by decide)
